import Mathlib

/-!
Verification development for `pydantic_walk_core_schema.walk_core_schema`
(a generic transformation engine for pydantic-core schema trees).

The Python source operates on mutable `dict` values ("CoreSchema" nodes).
We shallowly embed those values as the inductive type `Val`:

* `vNode id attrs` models a schema / sidecar / field-record `dict` object.
  The `id` component models Python object identity: `dict.copy()` produces a
  value with the same attributes but a fresh `id` (drawn from a counter in
  the engine state), while an in-place mutation (`schema[k] = v`) keeps the
  `id` and updates the attribute list.  Auxiliary dicts that the engine never
  passes to `_copy_schema` (the `"choices"` / `"fields"` mappings) are
  modelled as `vDict` without an identity, and Python lists/tuples as
  `vList` / `vPair`; their identities are not observed by any claim.
* Attribute lists are association lists with distinct keys (Python dicts
  preserve insertion order; updating an existing key keeps its position).

Fallible operations (KeyError on a missing mandatory attribute, TypeError /
AttributeError when a non-dict is indexed, fuel exhaustion on unbounded
recursion) are modelled by an `Option`-valued state monad `M`.
-/

namespace WalkCore

/-- A Python value as manipulated by the walker: `None`, strings, ints,
booleans, schema/record dicts with object identity (`vNode`), plain dicts
without tracked identity (`vDict`, used for `"choices"`/`"fields"` maps),
lists and 2-tuples. -/
inductive Val : Type where
  | vNone : Val
  | vStr : String → Val
  | vInt : Int → Val
  | vBool : Bool → Val
  | vNode : Nat → List (String × Val) → Val
  | vDict : List (Val × Val) → Val
  | vList : List Val → Val
  | vPair : Val → Val → Val

namespace Val

/-- Association-list lookup: Python `d[k]` / `k in d` on a dict with
distinct keys. -/
def alGet (k : String) : List (String × Val) → Option Val
  | [] => none
  | (k', v) :: rest => if k' = k then some v else alGet k rest

/-- Association-list update: Python `d[k] = v`.  An existing key keeps its
position (as in CPython dicts); a new key is appended. -/
def alSet (k : String) (x : Val) : List (String × Val) → List (String × Val)
  | [] => [(k, x)]
  | (k', v) :: rest => if k' = k then (k, x) :: rest else (k', v) :: alSet k x rest

/-- Key-presence test on an association list. -/
def alHas (k : String) (a : List (String × Val)) : Bool :=
  (alGet k a).isSome

/-- Python truthiness of a value (`if x:`). -/
def truthy : Val → Bool
  | vNone => false
  | vStr s => s ≠ ""
  | vInt n => n ≠ 0
  | vBool b => b
  | vNode _ a => !a.isEmpty
  | vDict l => !l.isEmpty
  | vList l => !l.isEmpty
  | vPair _ _ => true

/-- `d.get(k)` on a node, as a pure function: `vNone` when the key is
absent (Python collapses "absent" and "present as None" under `.get`).
Returns `vNone` on non-nodes as well; the monadic engine wraps this with a
failure check. -/
def pyGet (v : Val) (k : String) : Val :=
  match v with
  | vNode _ a => (alGet k a).getD vNone
  | _ => vNone

/-- The identity of a node object, when the value is a node. -/
def nodeId : Val → Option Nat
  | vNode i _ => some i
  | _ => none

end Val

open Val

mutual

/-- Erase object identities, keeping attribute contents: two values are
Python-`==`-equal ("deep-equal") exactly when their `stripIds` agree (the
engine preserves dict key order, so order-sensitive comparison of the
association lists is adequate). -/
def stripIds : Val → Val
  | .vNone => .vNone
  | .vStr s => .vStr s
  | .vInt n => .vInt n
  | .vBool b => .vBool b
  | .vNode _ a => .vNode 0 (stripAttrs a)
  | .vDict l => .vDict (stripEntries l)
  | .vList l => .vList (stripList l)
  | .vPair x y => .vPair (stripIds x) (stripIds y)

def stripAttrs : List (String × Val) → List (String × Val)
  | [] => []
  | (k, v) :: rest => (k, stripIds v) :: stripAttrs rest

def stripEntries : List (Val × Val) → List (Val × Val)
  | [] => []
  | (k, v) :: rest => (stripIds k, stripIds v) :: stripEntries rest

def stripList : List Val → List Val
  | [] => []
  | v :: rest => stripIds v :: stripList rest

end

/-- Engine state: the fresh-object-identity counter together with the user
transform's own state `σ` (a transform is free to carry state across
invocations; the engine itself only draws fresh identities). -/
structure WSt (σ : Type) : Type where
  ctr : Nat
  user : σ
  deriving Repr

/-- The engine monad: state (identity counter + transform state) with
failure (`none` models a raised exception or exhausted recursion fuel). -/
def M (σ : Type) (α : Type) : Type := WSt σ → Option (α × WSt σ)

instance : Monad (M σ) where
  pure a := fun st => some (a, st)
  bind m k := fun st =>
    match m st with
    | none => none
    | some (a, st') => k a st'

/-- Failure: a raised Python exception (or exhausted fuel). -/
def mfail : M σ α := fun _ => none

/-- Draw a fresh object identity. -/
def freshId : M σ Nat := fun st => some (st.ctr, ⟨st.ctr + 1, st.user⟩)

/-- `x is not None` (Python identity test against `None`). -/
def Val.isNotNone : Val → Bool
  | .vNone => false
  | _ => true

/-- `v[k]` on a dict: `KeyError` when the key is missing, `TypeError` when
`v` is not a dict. -/
def reqGet (v : Val) (k : String) : M σ Val :=
  match v with
  | .vNode _ a =>
    match alGet k a with
    | some x => pure x
    | none => mfail
  | _ => mfail

/-- `v.get(k)` / `v.get(k, None)` on a dict: `vNone` when absent (Python
collapses "absent" and "present as `None`"); fails when `v` is not a dict. -/
def pyGetM (v : Val) (k : String) : M σ Val :=
  match v with
  | .vNode _ a => pure ((alGet k a).getD .vNone)
  | _ => mfail

/-- `k in v` on a dict; fails when `v` is not a dict. -/
def hasK (v : Val) (k : String) : M σ Bool :=
  match v with
  | .vNode _ a => pure (alHas k a)
  | _ => mfail

/-- `v[k] = x` on a dict: in-place mutation, so the object identity is
kept; returns the mutated object. -/
def setK (v : Val) (k : String) (x : Val) : M σ Val :=
  match v with
  | .vNode i a => pure (.vNode i (alSet k x a))
  | _ => mfail

/-- `len(v)` on a dict (attribute lists have distinct keys). -/
def dictLen (v : Val) : M σ Nat :=
  match v with
  | .vNode _ a => pure a.length
  | _ => mfail

/-- An expected string (a `"type"` discriminant). -/
def asStr (v : Val) : M σ String :=
  match v with
  | .vStr s => pure s
  | _ => mfail

/-- Iteration over an expected list value. -/
def asList (v : Val) : M σ (List Val) :=
  match v with
  | .vList l => pure l
  | _ => mfail

/-- `.items()` iteration over an expected dict value (`"choices"` /
`"fields"` mappings). -/
def asDict (v : Val) : M σ (List (Val × Val)) :=
  match v with
  | .vDict l => pure l
  | _ => mfail

/-- `_WalkCoreSchema._copy_schema`: `schema.copy() if self._copy else
schema`.  A shallow `dict.copy()` keeps the attribute list (so child
objects stay shared) but yields a fresh object identity. -/
def _copy_schema (cp : Bool) (v : Val) : M σ Val :=
  if cp then
    match v with
    | .vNode _ a => do
        let i ← freshId
        pure (.vNode i a)
    | _ => mfail
  else pure v

/-- The members of `pydantic_core.core_schema.CoreSchemaType` (a closed
`Literal` type of the schema library this repository depends on);
`_build_schema_type_to_method` iterates `get_args(CoreSchemaType)`, so
exactly these strings become keys of the dispatch dict. -/
def coreSchemaTypes : List String :=
  ["any", "none", "bool", "int", "float", "decimal", "str", "bytes", "date",
   "time", "datetime", "timedelta", "literal", "enum", "is-instance",
   "is-subclass", "callable", "list", "tuple", "set", "frozenset",
   "generator", "dict", "function-after", "function-before", "function-plain",
   "function-wrap", "default", "nullable", "union", "tagged-union", "chain",
   "lax-or-strict", "json-or-python", "typed-dict", "model-fields", "model",
   "dataclass-args", "dataclass", "arguments", "call", "custom-error", "json",
   "url", "multi-host-url", "definitions", "definition-ref", "uuid", "complex"]

/-- Which handler method `getattr(self, f"handle_{key.replace('-','_')}_schema",
self._handle_other_schemas)` resolves to: one tag per `handle_*_schema`
method defined on `_WalkCoreSchema`, and `other` for the default. -/
inductive HTag : Type where
  | definitions | list | set | frozenset | generator | tuple | dict
  | functionAfter | functionBefore | functionPlain | functionWrap
  | union | taggedUnion | chain | laxOrStrict | jsonOrPython
  | modelFields | typedDict | dataclassArgs | arguments | call
  | other

/-- The method-name synthesis by naming convention: a discriminant maps to
its dedicated handler exactly when `handle_{type.replace('-','_')}_schema`
is a method of `_WalkCoreSchema`; every other discriminant falls back to
`_handle_other_schemas`. -/
def htagOf : String → HTag
  | "definitions" => .definitions
  | "list" => .list
  | "set" => .set
  | "frozenset" => .frozenset
  | "generator" => .generator
  | "tuple" => .tuple
  | "dict" => .dict
  | "function-after" => .functionAfter
  | "function-before" => .functionBefore
  | "function-plain" => .functionPlain
  | "function-wrap" => .functionWrap
  | "union" => .union
  | "tagged-union" => .taggedUnion
  | "chain" => .chain
  | "lax-or-strict" => .laxOrStrict
  | "json-or-python" => .jsonOrPython
  | "model-fields" => .modelFields
  | "typed-dict" => .typedDict
  | "dataclass-args" => .dataclassArgs
  | "arguments" => .arguments
  | "call" => .call
  | _ => .other

/-- A user transform `f(schema, recurse)`.  The second argument is the
recurse continuation with the transform already threaded (the engine always
re-threads the same `f`; handlers call `self.walk(child, f)`). -/
def WalkT (σ : Type) : Type := Val → (Val → M σ Val) → M σ Val

/-- `_handle_other_schemas`: the default handler — descend into an optional
single `"schema"` child, otherwise return the node unchanged. -/
def _handle_other_schemas (wk : Val → M σ Val) (s : Val) : M σ Val := do
  let sub ← pyGetM s "schema"
  if sub.isNotNone then do
    let x ← wk sub
    setK s "schema" x
  else pure s

/-- `_handle_ser_schemas`: walk the optional `"schema"` and
`"return_schema"` attributes of a `"serialization"` sidecar, copying the
sidecar first when either is present. -/
def _handle_ser_schemas (wk : Val → M σ Val) (cp : Bool) (ser : Val) : M σ Val := do
  let schema ← pyGetM ser "schema"
  let return_schema ← pyGetM ser "return_schema"
  if schema.isNotNone || return_schema.isNotNone then do
    let ser₁ ← _copy_schema cp ser
    let ser₂ ←
      if schema.isNotNone then do
        let x ← wk schema
        setK ser₁ "schema" x
      else pure ser₁
    if return_schema.isNotNone then do
      let x ← wk return_schema
      setK ser₂ "return_schema" x
    else pure ser₂
  else pure ser

/-- The `for definition in schema["definitions"]` loop of
`handle_definitions_schema`: a reference placeholder (carrying both
`"schema_ref"` and `"ref"`) is appended unchanged and additionally walked
with the result discarded; any other entry is walked and the result is
appended only if it still carries `"ref"`. -/
def walkDefinitions (wk : Val → M σ Val) : List Val → M σ (List Val)
  | [] => pure []
  | d :: rest => do
      let isRefPh ← do
        let h₁ ← hasK d "schema_ref"
        if h₁ then hasK d "ref" else pure false
      if isRefPh then do
        let _ ← wk d
        let rest' ← walkDefinitions wk rest
        pure (d :: rest')
      else do
        let u ← wk d
        let keep ← hasK u "ref"
        let rest' ← walkDefinitions wk rest
        pure (if keep then u :: rest' else rest')

/-- `handle_definitions_schema`. -/
def handle_definitions_schema (wk : Val → M σ Val) (cp : Bool) (s : Val) : M σ Val := do
  let defsV ← reqGet s "definitions"
  let l ← asList defsV
  let new_definitions ← walkDefinitions wk l
  let innerV ← reqGet s "schema"
  let new_inner_schema ← wk innerV
  let n ← dictLen s
  if new_definitions.isEmpty && n == 3 then
    pure new_inner_schema
  else do
    let s₁ ← _copy_schema cp s
    let s₂ ← setK s₁ "schema" new_inner_schema
    setK s₂ "definitions" (.vList new_definitions)

/-- The shared body of `handle_list_schema` / `handle_set_schema` /
`handle_frozenset_schema` / `handle_generator_schema`: an optional single
`"items_schema"` child. -/
def handleItemsOptional (wk : Val → M σ Val) (s : Val) : M σ Val := do
  let items ← pyGetM s "items_schema"
  if items.isNotNone then do
    let x ← wk items
    setK s "items_schema" x
  else pure s

def handle_list_schema (wk : Val → M σ Val) (s : Val) : M σ Val :=
  handleItemsOptional wk s

def handle_set_schema (wk : Val → M σ Val) (s : Val) : M σ Val :=
  handleItemsOptional wk s

def handle_frozenset_schema (wk : Val → M σ Val) (s : Val) : M σ Val :=
  handleItemsOptional wk s

def handle_generator_schema (wk : Val → M σ Val) (s : Val) : M σ Val :=
  handleItemsOptional wk s

/-- The comprehension `[self.walk(v, f) for v in ...]`. -/
def walkEach (wk : Val → M σ Val) : List Val → M σ (List Val)
  | [] => pure []
  | v :: rest => do
      let x ← wk v
      let rest' ← walkEach wk rest
      pure (x :: rest')

/-- `handle_tuple_schema`: the mandatory `"items_schema"` list, each item
walked, the list rebuilt in order. -/
def handle_tuple_schema (wk : Val → M σ Val) (s : Val) : M σ Val := do
  let itemsV ← reqGet s "items_schema"
  let l ← asList itemsV
  let l' ← walkEach wk l
  setK s "items_schema" (.vList l')

/-- `handle_dict_schema`: `keys_schema` is walked when present and not
`None` (`is not None`), while `values_schema` is walked only when truthy
(`if values_schema:`). -/
def handle_dict_schema (wk : Val → M σ Val) (s : Val) : M σ Val := do
  let keys_schema ← pyGetM s "keys_schema"
  let s₁ ←
    if keys_schema.isNotNone then do
      let x ← wk keys_schema
      setK s "keys_schema" x
    else pure s
  let values_schema ← pyGetM s₁ "values_schema"
  if values_schema.truthy then do
    let x ← wk values_schema
    setK s₁ "values_schema" x
  else pure s₁

/-- `handle_function_after_schema`: the `"schema"` child is read with
`schema["schema"]` (mandatory — `KeyError` when absent). -/
def handle_function_after_schema (wk : Val → M σ Val) (s : Val) : M σ Val := do
  let sub ← reqGet s "schema"
  let x ← wk sub
  setK s "schema" x

/-- `handle_function_before_schema`: mandatory `"schema"` child, optional
`"json_schema_input_schema"` child. -/
def handle_function_before_schema (wk : Val → M σ Val) (s : Val) : M σ Val := do
  let sub ← reqGet s "schema"
  let x ← wk sub
  let s₁ ← setK s "schema" x
  let hJs ← hasK s₁ "json_schema_input_schema"
  if hJs then do
    let js ← reqGet s₁ "json_schema_input_schema"
    let y ← wk js
    setK s₁ "json_schema_input_schema" y
  else pure s₁

/-- `handle_function_plain_schema`: only an optional
`"json_schema_input_schema"` child. -/
def handle_function_plain_schema (wk : Val → M σ Val) (s : Val) : M σ Val := do
  let hJs ← hasK s "json_schema_input_schema"
  if hJs then do
    let js ← reqGet s "json_schema_input_schema"
    let y ← wk js
    setK s "json_schema_input_schema" y
  else pure s

/-- `handle_function_wrap_schema`: optional `"schema"` (presence-tested)
and optional `"json_schema_input_schema"` children. -/
def handle_function_wrap_schema (wk : Val → M σ Val) (s : Val) : M σ Val := do
  let hS ← hasK s "schema"
  let s₁ ←
    if hS then do
      let sub ← reqGet s "schema"
      let x ← wk sub
      setK s "schema" x
    else pure s
  let hJs ← hasK s₁ "json_schema_input_schema"
  if hJs then do
    let js ← reqGet s₁ "json_schema_input_schema"
    let y ← wk js
    setK s₁ "json_schema_input_schema" y
  else pure s₁

/-- The `for v in schema["choices"]` loop of `handle_union_schema`: a
`(schema, label)` tuple has only its schema half walked. -/
def walkUnionChoices (wk : Val → M σ Val) : List Val → M σ (List Val)
  | [] => pure []
  | .vPair a b :: rest => do
      let x ← wk a
      let rest' ← walkUnionChoices wk rest
      pure (.vPair x b :: rest')
  | v :: rest => do
      let x ← wk v
      let rest' ← walkUnionChoices wk rest
      pure (x :: rest')

def handle_union_schema (wk : Val → M σ Val) (s : Val) : M σ Val := do
  let choicesV ← reqGet s "choices"
  let l ← asList choicesV
  let l' ← walkUnionChoices wk l
  setK s "choices" (.vList l')

/-- The `for k, v in schema["choices"].items()` loop of
`handle_tagged_union_schema`: a `str`/`int` alias passes through untouched
(Python `bool` is a subclass of `int`, so `vBool` is an alias too); any
other value is walked. -/
def walkTaggedChoices (wk : Val → M σ Val) : List (Val × Val) → M σ (List (Val × Val))
  | [] => pure []
  | (k, v) :: rest => do
      let v' ←
        match v with
        | .vStr _ | .vInt _ | .vBool _ => pure v
        | _ => wk v
      let rest' ← walkTaggedChoices wk rest
      pure ((k, v') :: rest')

def handle_tagged_union_schema (wk : Val → M σ Val) (s : Val) : M σ Val := do
  let choicesV ← reqGet s "choices"
  let l ← asDict choicesV
  let l' ← walkTaggedChoices wk l
  setK s "choices" (.vDict l')

def handle_chain_schema (wk : Val → M σ Val) (s : Val) : M σ Val := do
  let stepsV ← reqGet s "steps"
  let l ← asList stepsV
  let l' ← walkEach wk l
  setK s "steps" (.vList l')

def handle_lax_or_strict_schema (wk : Val → M σ Val) (s : Val) : M σ Val := do
  let lax ← reqGet s "lax_schema"
  let x ← wk lax
  let s₁ ← setK s "lax_schema" x
  let strict ← reqGet s₁ "strict_schema"
  let y ← wk strict
  setK s₁ "strict_schema" y

def handle_json_or_python_schema (wk : Val → M σ Val) (s : Val) : M σ Val := do
  let js ← reqGet s "json_schema"
  let x ← wk js
  let s₁ ← setK s "json_schema" x
  let ps ← reqGet s₁ "python_schema"
  let y ← wk ps
  setK s₁ "python_schema" y

/-- `schema.get("computed_fields", ())` followed by iteration: absent means
an empty tuple; a present non-list fails the `for` loop. -/
def getComputedFields (s : Val) : M σ (List Val) :=
  match s with
  | .vNode _ a =>
    match alGet "computed_fields" a with
    | none => pure []
    | some (.vList l) => pure l
    | some _ => mfail
  | _ => mfail

/-- One computed-field record: copy it, walk its `"return_schema"`
(mandatory), write the result into the copy. -/
def walkComputedField (wk : Val → M σ Val) (cp : Bool) (cf : Val) : M σ Val := do
  let rf ← _copy_schema cp cf
  let ret ← reqGet cf "return_schema"
  let x ← wk ret
  setK rf "return_schema" x

def walkComputedFields (wk : Val → M σ Val) (cp : Bool) : List Val → M σ (List Val)
  | [] => pure []
  | cf :: rest => do
      let rf ← walkComputedField wk cp cf
      let rest' ← walkComputedFields wk cp rest
      pure (rf :: rest')

/-- One field record (model / typed-dict / dataclass field, or arguments
parameter): copy it, walk its mandatory `"schema"` child, write the result
into the copy. -/
def walkFieldRecord (wk : Val → M σ Val) (cp : Bool) (v : Val) : M σ Val := do
  let rf ← _copy_schema cp v
  let sub ← reqGet v "schema"
  let x ← wk sub
  setK rf "schema" x

/-- The `for k, v in schema["fields"].items()` loop. -/
def walkFieldsMap (wk : Val → M σ Val) (cp : Bool) :
    List (Val × Val) → M σ (List (Val × Val))
  | [] => pure []
  | (k, v) :: rest => do
      let rf ← walkFieldRecord wk cp v
      let rest' ← walkFieldsMap wk cp rest
      pure ((k, rf) :: rest')

/-- The `for field in schema["fields"]` / `for param in
schema["arguments_schema"]` loops over record lists. -/
def walkFieldList (wk : Val → M σ Val) (cp : Bool) : List Val → M σ (List Val)
  | [] => pure []
  | v :: rest => do
      let rf ← walkFieldRecord wk cp v
      let rest' ← walkFieldList wk cp rest
      pure (rf :: rest')

/-- The computed-fields stage shared by the three fields-container
handlers: build the replaced list, write it back only when non-empty. -/
def computedFieldsStage (wk : Val → M σ Val) (cp : Bool) (s : Val) : M σ Val := do
  let cfl ← getComputedFields s
  let replaced ← walkComputedFields wk cp cfl
  if replaced.isEmpty then pure s
  else setK s "computed_fields" (.vList replaced)

/-- The optional-`"extras_schema"` stage of `handle_model_fields_schema` /
`handle_typed_dict_schema`. -/
def extrasStage (wk : Val → M σ Val) (s : Val) : M σ Val := do
  let extras ← pyGetM s "extras_schema"
  if extras.isNotNone then do
    let x ← wk extras
    setK s "extras_schema" x
  else pure s

def handle_model_fields_schema (wk : Val → M σ Val) (cp : Bool) (s : Val) : M σ Val := do
  let s₁ ← extrasStage wk s
  let s₂ ← computedFieldsStage wk cp s₁
  let fieldsV ← reqGet s₂ "fields"
  let entries ← asDict fieldsV
  let entries' ← walkFieldsMap wk cp entries
  setK s₂ "fields" (.vDict entries')

def handle_typed_dict_schema (wk : Val → M σ Val) (cp : Bool) (s : Val) : M σ Val := do
  let s₁ ← extrasStage wk s
  let s₂ ← computedFieldsStage wk cp s₁
  let fieldsV ← reqGet s₂ "fields"
  let entries ← asDict fieldsV
  let entries' ← walkFieldsMap wk cp entries
  setK s₂ "fields" (.vDict entries')

def handle_dataclass_args_schema (wk : Val → M σ Val) (cp : Bool) (s : Val) : M σ Val := do
  let s₁ ← computedFieldsStage wk cp s
  let fieldsV ← reqGet s₁ "fields"
  let l ← asList fieldsV
  let l' ← walkFieldList wk cp l
  setK s₁ "fields" (.vList l')

def handle_arguments_schema (wk : Val → M σ Val) (cp : Bool) (s : Val) : M σ Val := do
  let paramsV ← reqGet s "arguments_schema"
  let l ← asList paramsV
  let l' ← walkFieldList wk cp l
  let s₁ ← setK s "arguments_schema" (.vList l')
  let hVa ← hasK s₁ "var_args_schema"
  let s₂ ←
    if hVa then do
      let sub ← reqGet s₁ "var_args_schema"
      let x ← wk sub
      setK s₁ "var_args_schema" x
    else pure s₁
  let hVk ← hasK s₂ "var_kwargs_schema"
  if hVk then do
    let sub ← reqGet s₂ "var_kwargs_schema"
    let x ← wk sub
    setK s₂ "var_kwargs_schema" x
  else pure s₂

def handle_call_schema (wk : Val → M σ Val) (s : Val) : M σ Val := do
  let argsV ← reqGet s "arguments_schema"
  let x ← wk argsV
  let s₁ ← setK s "arguments_schema" x
  let hRet ← hasK s₁ "return_schema"
  if hRet then do
    let ret ← reqGet s₁ "return_schema"
    let y ← wk ret
    setK s₁ "return_schema" y
  else pure s₁

/-- Run the handler a tag resolves to (the value stored in
`_schema_type_to_method`). -/
def runHandler (tag : HTag) (wk : Val → M σ Val) (cp : Bool) (s : Val) : M σ Val :=
  match tag with
  | .definitions => handle_definitions_schema wk cp s
  | .list => handle_list_schema wk s
  | .set => handle_set_schema wk s
  | .frozenset => handle_frozenset_schema wk s
  | .generator => handle_generator_schema wk s
  | .tuple => handle_tuple_schema wk s
  | .dict => handle_dict_schema wk s
  | .functionAfter => handle_function_after_schema wk s
  | .functionBefore => handle_function_before_schema wk s
  | .functionPlain => handle_function_plain_schema wk s
  | .functionWrap => handle_function_wrap_schema wk s
  | .union => handle_union_schema wk s
  | .taggedUnion => handle_tagged_union_schema wk s
  | .chain => handle_chain_schema wk s
  | .laxOrStrict => handle_lax_or_strict_schema wk s
  | .jsonOrPython => handle_json_or_python_schema wk s
  | .modelFields => handle_model_fields_schema wk cp s
  | .typedDict => handle_typed_dict_schema wk cp s
  | .dataclassArgs => handle_dataclass_args_schema wk cp s
  | .arguments => handle_arguments_schema wk cp s
  | .call => handle_call_schema wk s
  | .other => _handle_other_schemas wk s

/-- The body of `_WalkCoreSchema._walk`, with the engine's own recursion
abstracted as `recur` (≈ the bound method `self._walk`): look the
discriminant up in the dispatch dict (`KeyError` when it is not a
`CoreSchemaType` member), run the resolved handler on a policy-copied node,
then unconditionally check the handler's result for a truthy
`"serialization"` sidecar and write the walked sidecar back. -/
def _walkBody (recur : Val → M σ Val) (cp : Bool) (f : WalkT σ) (s : Val) : M σ Val := do
  let tV ← reqGet s "type"
  let tn ← asStr tV
  if tn ∈ coreSchemaTypes then do
    let s₁ ← _copy_schema cp s
    let s₂ ← runHandler (htagOf tn) (fun c => f c recur) cp s₁
    let ser ← pyGetM s₂ "serialization"
    if ser.truthy then do
      let ser' ← _handle_ser_schemas (fun c => f c recur) cp ser
      setK s₂ "serialization" ser'
    else pure s₂
  else mfail

/-- `_WalkCoreSchema._walk`, bounded by recursion fuel (the Python
recursion is stack-bounded; exhausted fuel is failure). -/
def _walk : Nat → Bool → WalkT σ → Val → M σ Val
  | 0, _, _, _ => mfail
  | fuel + 1, cp, f, s => _walkBody (fun c => _walk fuel cp f c) cp f s

/-- `_WalkCoreSchema.walk`: `f(schema, self._walk)` — the transform is
invoked on the node as given, with `_walk` as the recurse continuation. -/
def walk (fuel : Nat) (cp : Bool) (s : Val) (f : WalkT σ) : M σ Val :=
  f s (fun c => _walk fuel cp f c)

/-- The public `walk_core_schema(schema, f, copy=...)`: copy the root when
`copy` is set, then call `f(root, _dispatch)` where `_dispatch` is the
`walk` method of the module-level instance built with that copy policy. -/
def walk_core_schema (fuel : Nat) (s : Val) (f : WalkT σ) (cp : Bool) : M σ Val := do
  let s₀ ← if cp then _copy_schema true s else pure s
  f s₀ (fun c => walk fuel cp c f)

/-- The identity transform that always recurses: `lambda s, r: r(s, f)`
with the same `f` threaded. -/
def idT : WalkT σ := fun s recurse => recurse s

/-- A transform that recurses at `"list"` nodes and returns every other
node exactly as it received it (so the walked output records which object
the transform was handed). -/
def recurseOnListT : WalkT σ := fun s recurse =>
  match s with
  | .vNode _ a =>
    match alGet "type" a with
    | some (.vStr "list") => recurse s
    | _ => pure s
  | _ => pure s

/-- A transform that recurses at `"definitions"` nodes, replaces `"str"`
leaves by a freshly allocated `{"type": "changed"}` node, and returns
every other node unchanged without recursing. -/
def pruneTriggerT : WalkT σ := fun s recurse =>
  match s with
  | .vNode _ a =>
    match alGet "type" a with
    | some (.vStr "definitions") => recurse s
    | some (.vStr "str") => do
        let i ← freshId
        pure (.vNode i [("type", .vStr "changed")])
    | _ => pure s
  | _ => pure s

/-- The primary shape-handling stage of `_walk`: dispatch the discriminant
through the registry (`KeyError` outside `CoreSchemaType`) and run the
resolved handler on the policy-copied node. -/
def shapeStage (recur : Val → M σ Val) (cp : Bool) (f : WalkT σ) (s : Val) :
    M σ Val := do
  let tV ← reqGet s "type"
  let tn ← asStr tV
  if tn ∈ coreSchemaTypes then do
    let s₁ ← _copy_schema cp s
    runHandler (htagOf tn) (fun c => f c recur) cp s₁
  else mfail

/-- The serialization-sidecar stage of `_walk`: check the (possibly
replaced) node for a truthy `"serialization"` attribute and, if present,
walk it through `_handle_ser_schemas` and write the result back. -/
def sidecarStage (wk : Val → M σ Val) (cp : Bool) (s₂ : Val) : M σ Val := do
  let ser ← pyGetM s₂ "serialization"
  if ser.truthy then do
    let ser' ← _handle_ser_schemas wk cp ser
    setK s₂ "serialization" ser'
  else pure s₂

/-- A definitions entry that still carries an identity tag (non-nodes are
ignored here: walking them faults, so they never reach the round-trip
statement). -/
def entryHasRef : Val → Bool
  | .vNode _ da => alHas "ref" da
  | _ => true

/-- The local round-trip condition on one attribute list: if it is a
definitions container, every entry carries `"ref"` (so the identity walk
retains all of them) and the container is not trivial (an empty
definitions list together with exactly the three baseline attributes
would be pruned). -/
def okSDefs (a : List (String × Val)) : Bool :=
  match alGet "type" a with
  | some (.vStr "definitions") =>
    (match alGet "definitions" a with
     | some (.vList l) => l.all entryHasRef && !(l.isEmpty && a.length == 3)
     | _ => true)
  | _ => true

mutual

/-- Round-trip validity of a (stripped) tree: no definitions container
anywhere is prunable and every definitions entry keeps its `"ref"`.
Applied to `stripIds t` of an input tree `t` (the condition only inspects
identity-independent structure). -/
def okS : Val → Bool
  | .vNode _ a => okSDefs a && okSAttrs a
  | .vDict l => okSEntries l
  | .vList l => okSList l
  | .vPair x y => okS x && okS y
  | _ => true

def okSAttrs : List (String × Val) → Bool
  | [] => true
  | (_, v) :: rest => okS v && okSAttrs rest

def okSEntries : List (Val × Val) → Bool
  | [] => true
  | (k, v) :: rest => okS k && okS v && okSEntries rest

def okSList : List Val → Bool
  | [] => true
  | v :: rest => okS v && okSList rest

end

/-- What the round-trip induction assumes of the engine's recursive
continuation under the identity transform: on a valid subtree, a
successful walk returns a node that is deep-equal to its input, never
decreases the identity counter, and under `copy=false` is exactly the
input with untouched state. -/
def IdWalkOk (cp : Bool) (wk : Val → M σ Val) : Prop :=
  ∀ c (st : WSt σ) r st', okS (stripIds c) = true → wk c st = some (r, st') →
    (∃ j b, r = Val.vNode j b ∧ (cp = true → st.ctr ≤ j)) ∧
    stripIds r = stripIds c ∧ st.ctr ≤ st'.ctr ∧
    (cp = false → r = c ∧ st' = st)

/-! ### Lemma section -/

@[simp] theorem M.bind_def (m : M σ α) (k : α → M σ β) (st : WSt σ) :
    (m >>= k) st =
      match m st with
      | none => none
      | some (a, st') => k a st' := rfl

@[simp] theorem M.pure_def (a : α) (st : WSt σ) : (pure a : M σ α) st = some (a, st) := rfl

@[simp] theorem M.mfail_def (st : WSt σ) : (mfail : M σ α) st = none := rfl

@[simp] theorem M.freshId_def (st : WSt σ) :
    (freshId : M σ Nat) st = some (st.ctr, ⟨st.ctr + 1, st.user⟩) := rfl

@[simp] theorem M.pure_bind (a : α) (k : α → M σ β) :
    (pure a >>= k) = k a := funext fun _ => rfl

@[simp] theorem M.bind_assoc (m : M σ α) (k : α → M σ β) (k' : β → M σ γ) :
    ((m >>= k) >>= k') = (m >>= fun a => k a >>= k') := by
  funext st
  show (match (match m st with
               | none => none
               | some (a, st') => k a st') with
        | none => none
        | some (b, st'') => k' b st'') =
    match m st with
    | none => none
    | some (a, st') =>
      match k a st' with
      | none => none
      | some (b, st'') => k' b st''
  rcases m st with _ | ⟨a, st'⟩ <;> rfl

/-! ### Association-list lemmas -/

theorem alGet_alSet_self (k : String) (x : Val) (a : List (String × Val)) :
    alGet k (alSet k x a) = some x := by
  induction a with
  | nil => simp [alSet, alGet]
  | cons hd tl ih =>
    obtain ⟨k', v⟩ := hd
    by_cases h : k' = k
    · simp [alSet, h, alGet]
    · simp [alSet, h, alGet, ih]

theorem alGet_alSet_ne (k k' : String) (h : k ≠ k') (x : Val)
    (a : List (String × Val)) : alGet k' (alSet k x a) = alGet k' a := by
  induction a with
  | nil => simp [alSet, alGet, h]
  | cons hd tl ih =>
    obtain ⟨k'', v⟩ := hd
    by_cases hk : k'' = k
    · subst hk
      simp [alSet, alGet, h]
    · simp [alSet, hk, alGet, ih]

theorem alSet_self (k : String) (v : Val) (a : List (String × Val))
    (h : alGet k a = some v) : alSet k v a = a := by
  induction a with
  | nil => simp [alGet] at h
  | cons hd tl ih =>
    obtain ⟨k', w⟩ := hd
    by_cases hk : k' = k
    · subst hk
      simp [alGet] at h
      simp [alSet, h]
    · simp [alGet, hk] at h
      simp [alSet, hk, ih h]

/-! ### Strip lemmas -/

theorem stripAttrs_eq_map (a : List (String × Val)) :
    stripAttrs a = a.map (fun kv => (kv.1, stripIds kv.2)) := by
  induction a with
  | nil => rfl
  | cons hd tl ih => obtain ⟨k, v⟩ := hd; simp [stripAttrs, ih]

theorem stripList_eq_map (l : List Val) : stripList l = l.map stripIds := by
  induction l with
  | nil => rfl
  | cons v tl ih => simp [stripList, ih]

theorem stripEntries_eq_map (l : List (Val × Val)) :
    stripEntries l = l.map (fun kv => (stripIds kv.1, stripIds kv.2)) := by
  induction l with
  | nil => rfl
  | cons hd tl ih => obtain ⟨k, v⟩ := hd; simp [stripEntries, ih]

theorem stripAttrs_length (a : List (String × Val)) :
    (stripAttrs a).length = a.length := by simp [stripAttrs_eq_map]

theorem stripList_isEmpty (l : List Val) :
    (stripList l).isEmpty = l.isEmpty := by
  cases l <;> simp [stripList]

theorem alGet_stripAttrs (k : String) (a : List (String × Val)) :
    alGet k (stripAttrs a) = (alGet k a).map stripIds := by
  induction a with
  | nil => rfl
  | cons hd tl ih =>
    obtain ⟨k', v⟩ := hd
    by_cases hk : k' = k <;> simp [stripAttrs, alGet, hk, ih]

theorem alHas_stripAttrs (k : String) (a : List (String × Val)) :
    alHas k (stripAttrs a) = alHas k a := by
  rw [Val.alHas, Val.alHas, alGet_stripAttrs]
  rcases alGet k a with _ | v <;> rfl

theorem stripAttrs_alSet (k : String) (x : Val) (a : List (String × Val)) :
    stripAttrs (alSet k x a) = alSet k (stripIds x) (stripAttrs a) := by
  induction a with
  | nil => simp [alSet, stripAttrs]
  | cons hd tl ih =>
    obtain ⟨k', v⟩ := hd
    by_cases hk : k' = k <;> simp [alSet, hk, stripAttrs, ih]

/-- Overwriting an attribute with a deep-equal value leaves the stripped
attribute list unchanged. -/
theorem stripAttrs_alSet_congr (k : String) (x v : Val)
    (a : List (String × Val)) (hv : alGet k a = some v)
    (hx : stripIds x = stripIds v) : stripAttrs (alSet k x a) = stripAttrs a := by
  rw [stripAttrs_alSet, hx, alSet_self]
  rw [alGet_stripAttrs, hv]
  rfl

/-! ### Validity-predicate extraction lemmas -/

theorem okSAttrs_alGet (k : String) (a : List (String × Val)) (v : Val)
    (h : okSAttrs a = true) (hg : alGet k a = some v) : okS v = true := by
  induction a with
  | nil => simp [alGet] at hg
  | cons hd tl ih =>
    obtain ⟨k', w⟩ := hd
    simp only [okSAttrs, Bool.and_eq_true] at h
    by_cases hk : k' = k
    · simp [alGet, hk] at hg
      exact hg ▸ h.1
    · simp [alGet, hk] at hg
      exact ih h.2 hg

theorem okSList_mem (l : List Val) (v : Val) (h : okSList l = true)
    (hv : v ∈ l) : okS v = true := by
  induction l with
  | nil => simp at hv
  | cons hd tl ih =>
    simp only [okSList, Bool.and_eq_true] at h
    rcases List.mem_cons.1 hv with rfl | hv'
    · exact h.1
    · exact ih h.2 hv'

theorem okSEntries_mem (l : List (Val × Val)) (k v : Val)
    (h : okSEntries l = true) (hv : (k, v) ∈ l) : okS v = true := by
  induction l with
  | nil => simp at hv
  | cons hd tl ih =>
    obtain ⟨k', w⟩ := hd
    simp only [okSEntries, Bool.and_eq_true] at h
    rcases List.mem_cons.1 hv with heq | hv'
    · cases heq
      exact h.1.2
    · exact ih h.2 hv'

/-- Extraction for the predicate used by the round-trip theorem: a node
attribute of a valid tree is a valid tree. -/
theorem okS_strip_attr (i : Nat) (a : List (String × Val)) (k : String)
    (v : Val) (h : okS (stripIds (.vNode i a)) = true)
    (hg : alGet k a = some v) : okS (stripIds v) = true := by
  simp only [stripIds, okS, Bool.and_eq_true] at h
  refine okSAttrs_alGet k (stripAttrs a) (stripIds v) h.2 ?_
  rw [alGet_stripAttrs, hg]
  rfl

theorem okS_strip_list_mem (l : List Val) (v : Val)
    (h : okS (stripIds (.vList l)) = true) (hv : v ∈ l) :
    okS (stripIds v) = true := by
  simp only [stripIds, okS] at h
  exact okSList_mem _ _ h (by rw [stripList_eq_map]; exact List.mem_map_of_mem _ hv)

theorem okS_strip_entries_mem (l : List (Val × Val)) (k v : Val)
    (h : okS (stripIds (.vDict l)) = true) (hv : (k, v) ∈ l) :
    okS (stripIds v) = true := by
  simp only [stripIds, okS] at h
  refine okSEntries_mem _ (stripIds k) (stripIds v) h ?_
  rw [stripEntries_eq_map]
  exact List.mem_map_of_mem _ hv

theorem okS_strip_pair (x y : Val) (h : okS (stripIds (.vPair x y)) = true) :
    okS (stripIds x) = true ∧ okS (stripIds y) = true := by
  simp only [stripIds, okS, Bool.and_eq_true] at h
  exact h

theorem okS_strip_list_cons (v : Val) (tl : List Val) :
    okS (stripIds (.vList (v :: tl))) =
      (okS (stripIds v) && okS (stripIds (.vList tl))) := by
  simp [stripIds, stripList, okS, okSList]

theorem okS_strip_entries_cons (k v : Val) (tl : List (Val × Val)) :
    okS (stripIds (.vDict ((k, v) :: tl))) =
      (okS (stripIds k) && (okS (stripIds v) && okS (stripIds (.vDict tl)))) := by
  simp [stripIds, stripEntries, okS, okSEntries, Bool.and_assoc]

/-! ### Inversion lemmas for the monadic operations -/

theorem M.bind_eq_some {m : M σ α} {k : α → M σ β} {st : WSt σ} {b : β}
    {st₂ : WSt σ} :
    (m >>= k) st = some (b, st₂) ↔
      ∃ a st₁, m st = some (a, st₁) ∧ k a st₁ = some (b, st₂) := by
  show (match m st with
        | none => none
        | some (a, st') => k a st') = some (b, st₂) ↔ _
  rcases m st with _ | ⟨a, st₁⟩
  · constructor
    · intro h
      exact Option.noConfusion h
    · rintro ⟨a, st₁, h, -⟩
      exact Option.noConfusion h
  · constructor
    · intro h
      exact ⟨a, st₁, rfl, h⟩
    · rintro ⟨a', st₁', heq, h⟩
      injection heq with heq'
      injection heq' with h₁ h₂
      subst h₁
      subst h₂
      exact h

theorem M.pure_eq_some {a b : α} {st st' : WSt σ} :
    (pure a : M σ α) st = some (b, st') ↔ b = a ∧ st' = st := by
  show some (a, st) = some (b, st') ↔ _
  constructor
  · intro h
    injection h with h'
    injection h' with h₁ h₂
    exact ⟨h₁.symm, h₂.symm⟩
  · rintro ⟨rfl, rfl⟩
    rfl

theorem reqGet_inv {v : Val} {k : String} {st : WSt σ} {x : Val}
    {st₁ : WSt σ} (h : reqGet v k st = some (x, st₁)) :
    st₁ = st ∧ ∃ i a, v = Val.vNode i a ∧ alGet k a = some x := by
  rcases v with _ | _ | _ | _ | ⟨i, a⟩ | _ | _ | _ <;>
    try exact Option.noConfusion h
  rw [show reqGet (Val.vNode i a) k =
      (match alGet k a with
       | some y => (pure y : M σ Val)
       | none => mfail) from rfl] at h
  rcases hg : alGet k a with _ | y <;> rw [hg] at h
  · exact Option.noConfusion h
  · rw [M.pure_eq_some] at h
    exact ⟨h.2, i, a, rfl, by rw [hg, h.1]⟩

theorem pyGetM_inv {v : Val} {k : String} {st : WSt σ} {x : Val}
    {st₁ : WSt σ} (h : pyGetM v k st = some (x, st₁)) :
    st₁ = st ∧ ∃ i a, v = Val.vNode i a ∧ x = (alGet k a).getD .vNone := by
  rcases v with _ | _ | _ | _ | ⟨i, a⟩ | _ | _ | _ <;>
    try exact Option.noConfusion h
  rw [show pyGetM (Val.vNode i a) k =
      (pure ((alGet k a).getD .vNone) : M σ Val) from rfl, M.pure_eq_some] at h
  exact ⟨h.2, i, a, rfl, h.1⟩

theorem hasK_inv {v : Val} {k : String} {st : WSt σ} {x : Bool}
    {st₁ : WSt σ} (h : hasK v k st = some (x, st₁)) :
    st₁ = st ∧ ∃ i a, v = Val.vNode i a ∧ x = alHas k a := by
  rcases v with _ | _ | _ | _ | ⟨i, a⟩ | _ | _ | _ <;>
    try exact Option.noConfusion h
  rw [show hasK (Val.vNode i a) k = (pure (alHas k a) : M σ Bool) from rfl,
    M.pure_eq_some] at h
  exact ⟨h.2, i, a, rfl, h.1⟩

theorem setK_inv {v : Val} {k : String} {x : Val} {st : WSt σ} {r : Val}
    {st₁ : WSt σ} (h : setK v k x st = some (r, st₁)) :
    st₁ = st ∧ ∃ i a, v = Val.vNode i a ∧ r = Val.vNode i (alSet k x a) := by
  rcases v with _ | _ | _ | _ | ⟨i, a⟩ | _ | _ | _ <;>
    try exact Option.noConfusion h
  rw [show setK (Val.vNode i a) k x =
      (pure (Val.vNode i (alSet k x a)) : M σ Val) from rfl,
    M.pure_eq_some] at h
  exact ⟨h.2, i, a, rfl, h.1⟩

theorem dictLen_inv {v : Val} {st : WSt σ} {n : Nat} {st₁ : WSt σ}
    (h : dictLen v st = some (n, st₁)) :
    st₁ = st ∧ ∃ i a, v = Val.vNode i a ∧ n = a.length := by
  rcases v with _ | _ | _ | _ | ⟨i, a⟩ | _ | _ | _ <;>
    try exact Option.noConfusion h
  rw [show dictLen (Val.vNode i a) = (pure a.length : M σ Nat) from rfl,
    M.pure_eq_some] at h
  exact ⟨h.2, i, a, rfl, h.1⟩

theorem asStr_inv {v : Val} {st : WSt σ} {s : String} {st₁ : WSt σ}
    (h : asStr v st = some (s, st₁)) : st₁ = st ∧ v = Val.vStr s := by
  rcases v with _ | t | _ | _ | _ | _ | _ | _ <;>
    try exact Option.noConfusion h
  rw [show asStr (Val.vStr t) = (pure t : M σ String) from rfl,
    M.pure_eq_some] at h
  exact ⟨h.2, by rw [h.1]⟩

theorem asList_inv {v : Val} {st : WSt σ} {l : List Val} {st₁ : WSt σ}
    (h : asList v st = some (l, st₁)) : st₁ = st ∧ v = Val.vList l := by
  rcases v with _ | _ | _ | _ | _ | _ | l' | _ <;>
    try exact Option.noConfusion h
  rw [show asList (Val.vList l') = (pure l' : M σ (List Val)) from rfl,
    M.pure_eq_some] at h
  exact ⟨h.2, by rw [h.1]⟩

theorem asDict_inv {v : Val} {st : WSt σ} {l : List (Val × Val)}
    {st₁ : WSt σ} (h : asDict v st = some (l, st₁)) :
    st₁ = st ∧ v = Val.vDict l := by
  rcases v with _ | _ | _ | _ | _ | l' | _ | _ <;>
    try exact Option.noConfusion h
  rw [show asDict (Val.vDict l') = (pure l' : M σ (List (Val × Val))) from rfl,
    M.pure_eq_some] at h
  exact ⟨h.2, by rw [h.1]⟩

theorem _copy_schema_inv {cp : Bool} {v : Val} {st : WSt σ} {r : Val}
    {st₁ : WSt σ} (h : _copy_schema cp v st = some (r, st₁)) :
    st.ctr ≤ st₁.ctr ∧ stripIds r = stripIds v ∧
      (cp = false → r = v ∧ st₁ = st) ∧
      (∀ i a, v = Val.vNode i a →
        ∃ j, r = Val.vNode j a ∧ (cp = true → st.ctr ≤ j)) := by
  cases cp
  · rw [show _copy_schema false v = (pure v : M σ Val) from rfl,
      M.pure_eq_some] at h
    obtain ⟨rfl, rfl⟩ := h
    refine ⟨le_refl _, rfl, fun _ => ⟨rfl, rfl⟩, ?_⟩
    rintro i a rfl
    exact ⟨i, rfl, fun hc => absurd hc (by simp)⟩
  · rcases v with _ | _ | _ | _ | ⟨i, a⟩ | _ | _ | _ <;>
      try exact Option.noConfusion h
    rw [show _copy_schema true (Val.vNode i a) st =
        some (Val.vNode st.ctr a, ⟨st.ctr + 1, st.user⟩) from rfl] at h
    injection h with h'
    injection h' with h₁ h₂
    subst h₁
    subst h₂
    refine ⟨Nat.le_succ _, by simp [stripIds], fun hc => absurd hc (by simp), ?_⟩
    rintro i' a' heq
    injection heq with hh₁ hh₂
    subst hh₂
    exact ⟨st.ctr, rfl, fun _ => le_refl _⟩

/-! ### Claim C2 — dispatch of unregistered discriminants -/

/-- Claim C2, counterexample.  The claim states that a node whose type
discriminant is unknown walks without raising; but a discriminant that is
not a member of `CoreSchemaType` is not a key of the dispatch dict, so
`self._schema_type_to_method[schema["type"]]` raises `KeyError`: walking
`{"type": "bogus"}` fails. -/
theorem c2_counterexample :
    walk_core_schema 10 (.vNode 0 [("type", .vStr "bogus")]) (idT (σ := Unit)) true
      ⟨1, ()⟩ = none := rfl

/-- Claim C2, amended.  A node whose discriminant is a `CoreSchemaType`
member *without a dedicated `handle_*_schema` method* dispatches to the
default handler and does not raise: if the node carries no (non-`None`)
`"schema"` child and no truthy sidecar it is returned unchanged (a fresh
copy under `copy=true`, the same object under `copy=false`); if it carries
a `"schema"` child, the walk descends into that child through the
transform.  A discriminant outside `CoreSchemaType` instead raises a
lookup error. -/
theorem c2_amended_thm {σ : Type} (fuel : Nat) (cp : Bool) (f : WalkT σ)
    (t : String) (i : Nat) (a : List (String × Val)) (st : WSt σ)
    (htype : alGet "type" a = some (.vStr t)) :
    (t ∈ coreSchemaTypes → htagOf t = HTag.other →
      ((alGet "schema" a).getD .vNone = .vNone →
        (alGet "serialization" a).getD .vNone = .vNone →
        _walk (fuel + 1) cp f (.vNode i a) st =
          some (.vNode (if cp then st.ctr else i) a,
                if cp then ⟨st.ctr + 1, st.user⟩ else st)) ∧
      (∀ sub, alGet "schema" a = some sub → sub.isNotNone = true →
        (alGet "serialization" a).getD .vNone = .vNone →
        _walk (fuel + 1) cp f (.vNode i a) st =
          (match f sub (fun c => _walk fuel cp f c)
              (if cp then ⟨st.ctr + 1, st.user⟩ else st) with
           | none => none
           | some (x, st₂) =>
             some (.vNode (if cp then st.ctr else i) (alSet "schema" x a), st₂)))) ∧
    (t ∉ coreSchemaTypes → _walk (fuel + 1) cp f (.vNode i a) st = none) := by
  constructor
  · intro hmem htag
    constructor
    · intro hnoschema hnoser
      cases cp <;>
        simp [_walk, _walkBody, reqGet, htype, asStr, hmem, _copy_schema,
          runHandler, htag, _handle_other_schemas, pyGetM, hnoschema,
          Val.isNotNone, setK, hnoser, Val.truthy]
    · intro sub hsub hnn hnoser
      cases cp
      all_goals
        simp [_walk, _walkBody, reqGet, htype, asStr, hmem, _copy_schema,
          runHandler, htag, _handle_other_schemas, pyGetM, hsub, hnn, setK]
      · rcases hres : f sub (fun c => _walk fuel false f c) st with _ | ⟨x, st₂⟩ <;>
          simp [hres, alGet_alSet_ne "schema" "serialization" (by decide),
            hnoser, Val.truthy]
      · rcases hres : f sub (fun c => _walk fuel true f c) ⟨st.ctr + 1, st.user⟩
            with _ | ⟨x, st₂⟩ <;>
          simp [hres, alGet_alSet_ne "schema" "serialization" (by decide),
            hnoser, Val.truthy]
  · intro hmem
    simp [_walk, _walkBody, reqGet, htype, asStr, hmem]

/-- Witness for `c2_amended_thm`: `"int"` is a `CoreSchemaType` member
with no dedicated handler; walking a bare int leaf under `copy=true`
returns a fresh copy of it, and `"bogus"` is rejected. -/
theorem c2_amended_witness :
    _walk 1 true (idT (σ := Unit)) (.vNode 9 [("type", .vStr "int")]) ⟨5, ()⟩ =
      some (.vNode 5 [("type", .vStr "int")], ⟨6, ()⟩) ∧
    _walk 1 true (idT (σ := Unit)) (.vNode 9 [("type", .vStr "bogus")]) ⟨5, ()⟩ =
      none := by
  constructor
  · have h := (c2_amended_thm (σ := Unit) 0 true idT "int" 9
      [("type", .vStr "int")] ⟨5, ()⟩ rfl).1 (by decide) rfl
    exact h.1 rfl rfl
  · exact (c2_amended_thm (σ := Unit) 0 true idT "bogus" 9
      [("type", .vStr "bogus")] ⟨5, ()⟩ rfl).2 (by decide)

/-! ### Claim C9 — function-wrapper children -/

/-- Claim C9, counterexample.  The claim states the `"schema"` child is
optional for the after variant; but `handle_function_after_schema` reads
`schema["schema"]` unconditionally, so walking `{"type": "function-after"}`
(no `"schema"` attribute) raises `KeyError` instead of returning the node
unchanged. -/
theorem c9_counterexample :
    walk_core_schema 10 (.vNode 0 [("type", .vStr "function-after")])
      (idT (σ := Unit)) true ⟨1, ()⟩ = none := rfl

/-- Claim C9, amended.  The `"schema"` child is *mandatory* for the before
and after variants (their handlers fault with `KeyError` when it is
absent); it is optional only for the wrap variant, whose handler skips it
when absent and walks it when present.  The `"json_schema_input_schema"`
child is optional and walked when present on the before, plain and wrap
variants (and left alone when absent). -/
theorem c9_amended_thm {σ : Type} (wk : Val → M σ Val) (i : Nat)
    (a : List (String × Val)) (st : WSt σ) :
    (alGet "schema" a = none →
      handle_function_after_schema wk (.vNode i a) st = none ∧
      handle_function_before_schema wk (.vNode i a) st = none) ∧
    (alGet "schema" a = none → alGet "json_schema_input_schema" a = none →
      handle_function_wrap_schema wk (.vNode i a) st = some (.vNode i a, st)) ∧
    (∀ sub, alGet "schema" a = some sub →
      alGet "json_schema_input_schema" a = none →
      handle_function_wrap_schema wk (.vNode i a) st =
        (match wk sub st with
         | none => none
         | some (x, st₁) => some (.vNode i (alSet "schema" x a), st₁)) ∧
      handle_function_after_schema wk (.vNode i a) st =
        (match wk sub st with
         | none => none
         | some (x, st₁) => some (.vNode i (alSet "schema" x a), st₁)) ∧
      handle_function_before_schema wk (.vNode i a) st =
        (match wk sub st with
         | none => none
         | some (x, st₁) => some (.vNode i (alSet "schema" x a), st₁))) ∧
    (∀ js, alGet "json_schema_input_schema" a = some js →
      handle_function_plain_schema wk (.vNode i a) st =
        (match wk js st with
         | none => none
         | some (y, st₁) =>
           some (.vNode i (alSet "json_schema_input_schema" y a), st₁))) ∧
    (∀ sub js, alGet "schema" a = some sub →
      alGet "json_schema_input_schema" a = some js →
      handle_function_before_schema wk (.vNode i a) st =
        (match wk sub st with
         | none => none
         | some (x, st₁) =>
           match wk js st₁ with
           | none => none
           | some (y, st₂) => some (.vNode i
               (alSet "json_schema_input_schema" y (alSet "schema" x a)),
               st₂)) ∧
      handle_function_wrap_schema wk (.vNode i a) st =
        (match wk sub st with
         | none => none
         | some (x, st₁) =>
           match wk js st₁ with
           | none => none
           | some (y, st₂) => some (.vNode i
               (alSet "json_schema_input_schema" y (alSet "schema" x a)),
               st₂))) ∧
    (∀ js, alGet "schema" a = none →
      alGet "json_schema_input_schema" a = some js →
      handle_function_wrap_schema wk (.vNode i a) st =
        (match wk js st with
         | none => none
         | some (y, st₁) => some (.vNode i
             (alSet "json_schema_input_schema" y a), st₁))) ∧
    (alGet "json_schema_input_schema" a = none →
      handle_function_plain_schema wk (.vNode i a) st =
        some (.vNode i a, st)) := by
  refine ⟨?_, ?_, ?_, ?_, ?_, ?_, ?_⟩
  · intro hs
    constructor <;> simp [handle_function_after_schema,
      handle_function_before_schema, reqGet, hs]
  · intro hs hjs
    simp [handle_function_wrap_schema, hasK, alHas, hs, hjs]
  · intro sub hs hjs
    refine ⟨?_, ?_, ?_⟩
    · simp only [handle_function_wrap_schema, hasK, alHas, hs, reqGet,
        M.bind_def, M.pure_def, Option.isSome_some, if_true, setK]
      rcases hres : wk sub st with _ | ⟨x, st₁⟩ <;>
        simp [hres, setK, alHas, alGet_alSet_ne "schema"
          "json_schema_input_schema" (by decide), hjs]
    · simp only [handle_function_after_schema, reqGet, hs, M.bind_def]
      rcases hres : wk sub st with _ | ⟨x, st₁⟩ <;> simp [hres, setK]
    · simp only [handle_function_before_schema, reqGet, hs, M.bind_def]
      rcases hres : wk sub st with _ | ⟨x, st₁⟩ <;>
        simp [hres, setK, hasK, alHas, alGet_alSet_ne "schema"
          "json_schema_input_schema" (by decide), hjs]
  · intro js hjs
    simp only [handle_function_plain_schema, hasK, alHas, hjs, reqGet,
      M.bind_def, M.pure_def, Option.isSome_some, if_true]
    rcases hres : wk js st with _ | ⟨y, st₁⟩ <;> simp [hres, setK]
  · intro sub js hs hjs
    constructor
    · simp only [handle_function_before_schema, reqGet, hs, M.bind_def]
      rcases hx : wk sub st with _ | ⟨x, st₁⟩
      · rfl
      · simp only [setK, M.bind_def, M.pure_def, hasK, alHas,
          alGet_alSet_ne "schema" "json_schema_input_schema" (by decide),
          hjs, Option.isSome_some, if_true, reqGet]
        rcases hy : wk js st₁ with _ | ⟨y, st₂⟩ <;> simp [hy, setK]
    · simp only [handle_function_wrap_schema, hasK, alHas, hs, reqGet,
        M.bind_def, M.pure_def, Option.isSome_some, if_true]
      rcases hx : wk sub st with _ | ⟨x, st₁⟩
      · rfl
      · simp only [setK, M.bind_def, M.pure_def, hasK, alHas,
          alGet_alSet_ne "schema" "json_schema_input_schema" (by decide),
          hjs, Option.isSome_some, if_true, reqGet]
        rcases hy : wk js st₁ with _ | ⟨y, st₂⟩ <;> simp [hy, setK]
  · intro js hs hjs
    simp only [handle_function_wrap_schema, hasK, alHas, hs, hjs,
      M.bind_def, M.pure_def, Option.isSome_some, Option.isSome_none,
      Bool.false_eq_true, if_false, reqGet, if_true]
    rcases hy : wk js st with _ | ⟨y, st₁⟩ <;> simp [hy, setK]
  · intro hjs
    simp [handle_function_plain_schema, hasK, alHas, hjs]

/-- Witness for `c9_amended_thm` at concrete inputs: a schema-less
before-variant node faults; a schema-less wrap-variant node passes through
unchanged; a wrap-variant node with a `"schema"` child descends into it;
and with a transform that replaces every child it is handed, a
before-variant node carrying both children has both replaced, a
wrap-variant node carrying only `"json_schema_input_schema"` has it
replaced, and a json-less plain-variant node passes through unchanged. -/
theorem c9_amended_witness :
    handle_function_before_schema (σ := Unit) (fun v => pure v) (.vNode 4
      [("type", .vStr "function-before")]) ⟨0, ()⟩ = none ∧
    handle_function_wrap_schema (σ := Unit) (fun v => pure v) (.vNode 4
      [("type", .vStr "function-wrap")]) ⟨0, ()⟩ =
      some (.vNode 4 [("type", .vStr "function-wrap")], ⟨0, ()⟩) ∧
    handle_function_wrap_schema (σ := Unit) (fun v => pure v) (.vNode 4
      [("type", .vStr "function-wrap"), ("schema", .vNode 5 [("type", .vStr "int")])])
      ⟨0, ()⟩ =
      some (.vNode 4 [("type", .vStr "function-wrap"),
        ("schema", .vNode 5 [("type", .vStr "int")])], ⟨0, ()⟩) ∧
    handle_function_before_schema (σ := Unit)
      (fun _ => pure (.vNode 9 [("type", .vStr "replaced")])) (.vNode 4
      [("type", .vStr "function-before"),
       ("schema", .vNode 5 [("type", .vStr "int")]),
       ("json_schema_input_schema", .vNode 6 [("type", .vStr "str")])])
      ⟨0, ()⟩ =
      some (.vNode 4 [("type", .vStr "function-before"),
        ("schema", .vNode 9 [("type", .vStr "replaced")]),
        ("json_schema_input_schema", .vNode 9 [("type", .vStr "replaced")])],
        ⟨0, ()⟩) ∧
    handle_function_wrap_schema (σ := Unit)
      (fun _ => pure (.vNode 9 [("type", .vStr "replaced")])) (.vNode 4
      [("type", .vStr "function-wrap"),
       ("json_schema_input_schema", .vNode 6 [("type", .vStr "str")])])
      ⟨0, ()⟩ =
      some (.vNode 4 [("type", .vStr "function-wrap"),
        ("json_schema_input_schema", .vNode 9 [("type", .vStr "replaced")])],
        ⟨0, ()⟩) ∧
    handle_function_plain_schema (σ := Unit)
      (fun _ => pure (.vNode 9 [("type", .vStr "replaced")])) (.vNode 4
      [("type", .vStr "function-plain")]) ⟨0, ()⟩ =
      some (.vNode 4 [("type", .vStr "function-plain")], ⟨0, ()⟩) := by
  refine ⟨?_, ?_, ?_, ?_, ?_, ?_⟩
  · exact ((c9_amended_thm (σ := Unit) (fun v => pure v) 4
      [("type", .vStr "function-before")] ⟨0, ()⟩).1 rfl).2
  · exact (c9_amended_thm (σ := Unit) (fun v => pure v) 4
      [("type", .vStr "function-wrap")] ⟨0, ()⟩).2.1 rfl rfl
  · exact ((c9_amended_thm (σ := Unit) (fun v => pure v) 4
      [("type", .vStr "function-wrap"),
       ("schema", .vNode 5 [("type", .vStr "int")])] ⟨0, ()⟩).2.2.1
      (.vNode 5 [("type", .vStr "int")]) rfl rfl).1
  · exact ((c9_amended_thm (σ := Unit)
      (fun _ => pure (.vNode 9 [("type", .vStr "replaced")])) 4
      [("type", .vStr "function-before"),
       ("schema", .vNode 5 [("type", .vStr "int")]),
       ("json_schema_input_schema", .vNode 6 [("type", .vStr "str")])]
      ⟨0, ()⟩).2.2.2.2.1
      (.vNode 5 [("type", .vStr "int")])
      (.vNode 6 [("type", .vStr "str")]) rfl rfl).1
  · exact (c9_amended_thm (σ := Unit)
      (fun _ => pure (.vNode 9 [("type", .vStr "replaced")])) 4
      [("type", .vStr "function-wrap"),
       ("json_schema_input_schema", .vNode 6 [("type", .vStr "str")])]
      ⟨0, ()⟩).2.2.2.2.2.1
      (.vNode 6 [("type", .vStr "str")]) rfl rfl
  · exact (c9_amended_thm (σ := Unit)
      (fun _ => pure (.vNode 9 [("type", .vStr "replaced")])) 4
      [("type", .vStr "function-plain")] ⟨0, ()⟩).2.2.2.2.2.2 rfl

/-! ### Claim C10 — asymmetric optional children in the dict handler -/

/-- Claim C10, confirmed.  In `handle_dict_schema` the `"keys_schema"`
child is walked whenever it is present and not `None` (`is not None`),
while the `"values_schema"` child is walked only when truthy
(`if values_schema:`): a present-but-falsy `"values_schema"` (e.g. an
empty mapping) is left in the node unvisited and unmodified, while a
present-but-falsy (non-`None`) `"keys_schema"` is still walked; a truthy
`"values_schema"` is walked. -/
theorem c10_dict_asymmetry {σ : Type} (wk : Val → M σ Val) (i : Nat)
    (a : List (String × Val)) (st : WSt σ) :
    (∀ k vv, alGet "keys_schema" a = some k → k.isNotNone = true →
      alGet "values_schema" a = some vv → vv.truthy = false →
      handle_dict_schema wk (.vNode i a) st =
        (match wk k st with
         | none => none
         | some (x, st₁) => some (.vNode i (alSet "keys_schema" x a), st₁))) ∧
    (∀ vv, alGet "keys_schema" a = none → alGet "values_schema" a = some vv →
      vv.truthy = true →
      handle_dict_schema wk (.vNode i a) st =
        (match wk vv st with
         | none => none
         | some (y, st₁) => some (.vNode i (alSet "values_schema" y a), st₁))) := by
  constructor
  · intro k vv hk hknn hv hvf
    simp only [handle_dict_schema, pyGetM, hk, M.bind_def, M.pure_def,
      Option.getD_some, hknn, if_true, reqGet]
    rcases hres : wk k st with _ | ⟨x, st₁⟩ <;>
      simp [hres, setK, alGet_alSet_ne "keys_schema" "values_schema" (by decide),
        hv, hvf]
  · intro vv hk hv hvt
    simp only [handle_dict_schema, pyGetM, hk, M.bind_def, M.pure_def,
      Option.getD_none, Val.isNotNone, Bool.false_eq_true, if_false]
    rcases hres : wk vv st with _ | ⟨y, st₁⟩ <;> simp [hres, hv, hvt, setK]

/-- Witness for `c10_dict_asymmetry`: with a transform stage that maps
every walked child to the string `"visited"`, a dict node whose
`"keys_schema"` and `"values_schema"` are both falsy empty dicts has its
keys child replaced and its values child left untouched; a truthy values
child is replaced. -/
theorem c10_dict_asymmetry_witness :
    handle_dict_schema (σ := Unit) (fun _ => pure (.vStr "visited"))
      (.vNode 0 [("type", .vStr "dict"), ("keys_schema", .vNode 7 []),
        ("values_schema", .vNode 8 [])]) ⟨0, ()⟩ =
      some (.vNode 0 [("type", .vStr "dict"), ("keys_schema", .vStr "visited"),
        ("values_schema", .vNode 8 [])], ⟨0, ()⟩) ∧
    handle_dict_schema (σ := Unit) (fun _ => pure (.vStr "visited"))
      (.vNode 0 [("type", .vStr "dict"),
        ("values_schema", .vNode 8 [("type", .vStr "int")])]) ⟨0, ()⟩ =
      some (.vNode 0 [("type", .vStr "dict"),
        ("values_schema", .vStr "visited")], ⟨0, ()⟩) := by
  constructor
  · exact (c10_dict_asymmetry (σ := Unit) (fun _ => pure (.vStr "visited")) 0
      [("type", .vStr "dict"), ("keys_schema", .vNode 7 []),
       ("values_schema", .vNode 8 [])] ⟨0, ()⟩).1
      (.vNode 7 []) (.vNode 8 []) rfl rfl rfl rfl
  · exact (c10_dict_asymmetry (σ := Unit) (fun _ => pure (.vStr "visited")) 0
      [("type", .vStr "dict"),
       ("values_schema", .vNode 8 [("type", .vStr "int")])] ⟨0, ()⟩).2
      (.vNode 8 [("type", .vStr "int")]) rfl rfl rfl

/-! ### Claim C8 — when the copy policy is applied relative to the transform -/

/-- Claim C8, counterexample.  The claim states that under `copy=true` the
transform always receives an already shallow-copied node.  Input: a list
node (object id 0) with child `{"type": "int"}` (object id 1); the
identity counter starts at 2, so every object the engine copies gets id
≥ 2.  The transform returns non-list nodes exactly as received, and the
output's `"items_schema"` slot holds the node with id 1 — the caller's
original child object, not a copy: the transform was invoked on the
uncopied child. -/
theorem c8_counterexample :
    walk_core_schema 10
      (.vNode 0 [("type", .vStr "list"),
        ("items_schema", .vNode 1 [("type", .vStr "int")])])
      (recurseOnListT (σ := Unit)) true ⟨2, ()⟩ =
      some (.vNode 3 [("type", .vStr "list"),
        ("items_schema", .vNode 1 [("type", .vStr "int")])], ⟨4, ()⟩) := rfl

/-- Claim C8, amended.  Only the root is copied before the transform sees
it: `walk_core_schema(.., copy=True)` copies the root and then invokes the
transform on the copy.  For every other visited node, `walk` invokes the
transform on the node exactly as given (no copy); the copy policy is
applied only after the transform invokes `recurse`, inside `_walk`, which
hands the shape handler a fresh copy (`.vNode st.ctr a`, identity drawn
from the counter) of the node. -/
theorem c8_amended_thm {σ : Type} (fuel : Nat) (cp : Bool) (f : WalkT σ)
    (s : Val) :
    (walk_core_schema fuel s f true =
      (_copy_schema true s >>= fun s₀ => f s₀ (fun c => walk fuel true c f))) ∧
    (walk fuel cp s f = f s (fun c => _walk fuel cp f c)) ∧
    (∀ t i a st, alGet "type" a = some (.vStr t) → t ∈ coreSchemaTypes →
      _walk (fuel + 1) true f (.vNode i a) st =
        (runHandler (htagOf t) (fun c => f c (fun c' => _walk fuel true f c'))
            true (.vNode st.ctr a) >>= fun s₂ => do
          let ser ← pyGetM s₂ "serialization"
          if ser.truthy then do
            let ser' ← _handle_ser_schemas
              (fun c => f c (fun c' => _walk fuel true f c')) true ser
            setK s₂ "serialization" ser'
          else pure s₂) ⟨st.ctr + 1, st.user⟩) := by
  refine ⟨rfl, rfl, ?_⟩
  intro t i a st htype hmem
  simp [_walk, _walkBody, reqGet, htype, asStr, hmem, _copy_schema]

/-- Witness for `c8_amended_thm`: the handler stage of a walked int leaf
operates on the fresh copy (id 5 = the counter), not on the original
object (id 9). -/
theorem c8_amended_witness :
    _walk 1 true (idT (σ := Unit)) (.vNode 9 [("type", .vStr "int")]) ⟨5, ()⟩ =
      (runHandler (htagOf "int")
          (fun c => idT c (fun c' => _walk 0 true (idT (σ := Unit)) c'))
          true (.vNode 5 [("type", .vStr "int")]) >>= fun s₂ => do
        let ser ← pyGetM s₂ "serialization"
        if ser.truthy then do
          let ser' ← _handle_ser_schemas
            (fun c => idT c (fun c' => _walk 0 true (idT (σ := Unit)) c')) true ser
          setK s₂ "serialization" ser'
        else pure s₂) ⟨6, ()⟩ :=
  (c8_amended_thm (σ := Unit) 0 true idT (.vNode 9 [("type", .vStr "int")])).2.2
    "int" 9 [("type", .vStr "int")] ⟨5, ()⟩ rfl (by decide)

/-! ### Claim C7 — mutation discipline under the copy policy -/

/-- Claim C7, code bug, evaluated at the failing input.  Input (ids 0–3,
counter starts at 4): a definitions container `{type, schema: inner,
definitions: []}` whose inner node (object id 1) carries a
`"serialization"` sidecar whose `"schema"` is a `"str"` leaf.  Under
`copy=true` with `pruneTriggerT`, `handle_definitions_schema` prunes the
trivial container and returns the transform's output for the inner node —
the caller's original object (id 1), not a copy.  `_walk` then writes the
rewritten sidecar into that object: the walk's result is the node with
object id 1 (the caller's own inner node) whose contents now differ from
the input — the caller's input tree was mutated despite `copy=true`,
contradicting the claim (and the docstring "it will not be modified"). -/
theorem c7_code_bug_eval :
    walk_core_schema 10
      (.vNode 0 [("type", .vStr "definitions"),
        ("schema", .vNode 1 [("type", .vStr "int"),
          ("serialization", .vNode 2 [("schema",
            .vNode 3 [("type", .vStr "str")])])]),
        ("definitions", .vList [])])
      (pruneTriggerT (σ := Unit)) true ⟨4, ()⟩ =
      some (.vNode 1 [("type", .vStr "int"),
        ("serialization", .vNode 6 [("schema",
          .vNode 7 [("type", .vStr "changed")])])], ⟨8, ()⟩) ∧
    Val.nodeId (.vNode 1 [("type", .vStr "int"),
        ("serialization", .vNode 6 [("schema",
          .vNode 7 [("type", .vStr "changed")])])]) =
      Val.nodeId (.vNode 1 [("type", .vStr "int"),
        ("serialization", .vNode 2 [("schema",
          .vNode 3 [("type", .vStr "str")])])]) ∧
    stripIds (.vNode 1 [("type", .vStr "int"),
        ("serialization", .vNode 6 [("schema",
          .vNode 7 [("type", .vStr "changed")])])]) ≠
      stripIds (.vNode 1 [("type", .vStr "int"),
        ("serialization", .vNode 2 [("schema",
          .vNode 3 [("type", .vStr "str")])])]) := by
  refine ⟨rfl, rfl, ?_⟩
  intro h
  simp [stripIds, stripAttrs] at h

/-! ### Claim C1 — the sidecar pass runs exactly once, after shape handling -/

/-- Claim C1, confirmed.  For every node the engine descends into (every
`_walk` execution) and for *every* user transform `f` — however many times
it invokes the recurse continuation — the body of `_walk` is exactly the
shape-handler stage followed by a single serialization-sidecar stage:
(1) `_walkBody` factors as `shapeStage >>= sidecarStage`;
(2) when the (possibly replaced) node carries a truthy `"serialization"`
sidecar, the sidecar stage walks it through `_handle_ser_schemas` and
writes the result back into the node (and does nothing otherwise);
(3) a sidecar carrying `"schema"` and `"return_schema"` attributes has
both walked through the same transform continuation and written back into
the (policy-copied) sidecar. -/
theorem c1_sidecar_once_after {σ : Type} (recur : Val → M σ Val) (cp : Bool)
    (f : WalkT σ) (s : Val) :
    (_walkBody recur cp f s =
      shapeStage recur cp f s >>= sidecarStage (fun c => f c recur) cp) ∧
    (∀ (wk : Val → M σ Val) (i : Nat) (a : List (String × Val)) ser,
      (alGet "serialization" a).getD .vNone = ser →
      (ser.truthy = true →
        sidecarStage wk cp (.vNode i a) =
          (_handle_ser_schemas wk cp ser >>= fun ser' =>
            setK (.vNode i a) "serialization" ser')) ∧
      (ser.truthy = false →
        sidecarStage wk cp (.vNode i a) = pure (.vNode i a))) ∧
    (∀ (wk : Val → M σ Val) (j : Nat) (b : List (String × Val)) sch ret
        (st : WSt σ),
      alGet "schema" b = some sch → sch.isNotNone = true →
      alGet "return_schema" b = some ret → ret.isNotNone = true →
      _handle_ser_schemas wk cp (.vNode j b) st =
        (match wk sch (if cp then ⟨st.ctr + 1, st.user⟩ else st) with
         | none => none
         | some (x, st₁) =>
           match wk ret st₁ with
           | none => none
           | some (y, st₂) =>
             some (.vNode (if cp then st.ctr else j)
               (alSet "return_schema" y (alSet "schema" x b)), st₂))) := by
  refine ⟨?_, ?_, ?_⟩
  · funext st
    rcases h1 : reqGet s "type" st with _ | ⟨tV, st₀⟩ <;>
      simp only [_walkBody, shapeStage, M.bind_def, h1]
    rcases h2 : asStr tV st₀ with _ | ⟨tn, st₁⟩ <;> simp only [h2]
    by_cases hm : tn ∈ coreSchemaTypes <;>
      simp only [hm, if_true, if_false, M.bind_def, M.mfail_def]
    rcases h3 : _copy_schema cp s st₁ with _ | ⟨s₁, st₂⟩ <;> simp only [h3]
    rcases h4 : runHandler (htagOf tn) (fun c => f c recur) cp s₁ st₂
        with _ | ⟨s₂, st₃⟩ <;> simp only [h4]
    simp [sidecarStage]
  · intro wk i a ser hser
    constructor <;> intro ht <;>
      simp [sidecarStage, pyGetM, hser, ht]
  · intro wk j b sch ret st hsch hsnn hret hrnn
    cases cp
    all_goals
      simp only [_handle_ser_schemas, pyGetM, M.bind_def, M.pure_def, pure_bind,
        hsch, hret, Option.getD_some, hsnn, hrnn, Bool.true_or, if_true,
        _copy_schema, M.freshId_def, setK, if_false, Bool.false_eq_true]
    · rcases hx : wk sch st with _ | ⟨x, st₁⟩ <;>
        simp only [hx, M.bind_def, M.pure_def, pure_bind, setK, hrnn, if_true]
      rcases hy : wk ret st₁ with _ | ⟨y, st₂⟩ <;>
        simp only [hy, M.bind_def, M.pure_def, setK]
    · rcases hx : wk sch ⟨st.ctr + 1, st.user⟩ with _ | ⟨x, st₁⟩ <;>
        simp only [hx, M.bind_def, M.pure_def, pure_bind, setK, hrnn, if_true]
      rcases hy : wk ret st₁ with _ | ⟨y, st₂⟩ <;>
        simp only [hy, M.bind_def, M.pure_def, setK]

/-- Witness for `c1_sidecar_once_after`: a node carrying a sidecar has the
sidecar walked and written back by the sidecar stage, and a sidecar with
both `"schema"` and `"return_schema"` has both walked (here through a
pass-through stage) and written back into the fresh copy (id 5 = the
counter). -/
theorem c1_sidecar_witness :
    sidecarStage (σ := Unit) (fun v => pure v) true
      (.vNode 1 [("type", .vStr "int"),
        ("serialization", .vNode 2 [("schema", .vNode 3 [("type", .vStr "str")])])]) =
      (_handle_ser_schemas (fun v => pure v) true
          (.vNode 2 [("schema", .vNode 3 [("type", .vStr "str")])]) >>= fun ser' =>
        setK (.vNode 1 [("type", .vStr "int"),
          ("serialization", .vNode 2 [("schema", .vNode 3 [("type", .vStr "str")])])])
          "serialization" ser') ∧
    _handle_ser_schemas (σ := Unit) (fun v => pure v) true
      (.vNode 2 [("schema", .vNode 3 [("type", .vStr "str")]),
        ("return_schema", .vNode 4 [("type", .vStr "int")])]) ⟨5, ()⟩ =
      some (.vNode 5 [("schema", .vNode 3 [("type", .vStr "str")]),
        ("return_schema", .vNode 4 [("type", .vStr "int")])], ⟨6, ()⟩) := by
  constructor
  · exact ((c1_sidecar_once_after (σ := Unit) (fun v => pure v) true idT
      .vNone).2.1 (fun v => pure v) 1
      [("type", .vStr "int"),
       ("serialization", .vNode 2 [("schema", .vNode 3 [("type", .vStr "str")])])]
      (.vNode 2 [("schema", .vNode 3 [("type", .vStr "str")])]) rfl).1 rfl
  · exact (c1_sidecar_once_after (σ := Unit) (fun v => pure v) true idT
      .vNone).2.2 (fun v => pure v) 2
      [("schema", .vNode 3 [("type", .vStr "str")]),
       ("return_schema", .vNode 4 [("type", .vStr "int")])]
      (.vNode 3 [("type", .vStr "str")]) (.vNode 4 [("type", .vStr "int")])
      ⟨5, ()⟩ rfl rfl rfl rfl

/-! ### Claim C4 — reference placeholders in the definitions handler -/

/-- Claim C4, confirmed.  A definition entry carrying both `"schema_ref"`
and `"ref"` is appended to the output definitions list unchanged, while
the entry is additionally walked (its state effects happen, threading
`st → st₁` before the remaining entries) and the walk's return value is
discarded — the equation's `some (_, st₁)` branch never inspects the
walked value, so the placeholder appears unchanged in the output even when
the walk's result differs from it; and the definitions handler with a
one-placeholder list emits exactly that unchanged placeholder. -/
theorem c4_placeholder_preserved {σ : Type} (wk : Val → M σ Val) (st : WSt σ) :
    (∀ (di : Nat) (da : List (String × Val)) (rest : List Val),
      alHas "schema_ref" da = true → alHas "ref" da = true →
      walkDefinitions wk (.vNode di da :: rest) st =
        (match wk (.vNode di da) st with
         | none => none
         | some (_, st₁) =>
           match walkDefinitions wk rest st₁ with
           | none => none
           | some (rest', st₂) => some (.vNode di da :: rest', st₂))) ∧
    (∀ (i : Nat) (a : List (String × Val)) (di : Nat)
        (da : List (String × Val)) inner u inner' (st₁ st₂ : WSt σ),
      alGet "definitions" a = some (.vList [.vNode di da]) →
      alGet "schema" a = some inner →
      alHas "schema_ref" da = true → alHas "ref" da = true →
      wk (.vNode di da) st = some (u, st₁) →
      wk inner st₁ = some (inner', st₂) →
      handle_definitions_schema wk false (.vNode i a) st =
        some (.vNode i (alSet "definitions" (.vList [.vNode di da])
          (alSet "schema" inner' a)), st₂)) := by
  constructor
  · intro di da rest hsr href
    simp only [Val.alHas] at hsr href
    simp only [walkDefinitions, hasK, Val.alHas, M.pure_bind, hsr, href,
      if_true, M.bind_def]
    rcases hw : wk (.vNode di da) st with _ | ⟨u, st₁⟩ <;> simp only [hw]
    rcases hr : walkDefinitions wk rest st₁ with _ | ⟨rest', st₂⟩ <;>
      simp only [hr, M.pure_def]
  · intro i a di da inner u inner' st₁ st₂ hdefs hinner hsr href hwd hwi
    simp only [Val.alHas] at hsr href
    simp only [handle_definitions_schema, reqGet, hdefs, M.pure_bind, asList,
      walkDefinitions, hasK, Val.alHas, hsr, href, if_true, M.bind_def, hwd,
      hinner, hwi, dictLen, _copy_schema, setK, M.pure_def,
      List.isEmpty_cons, Bool.false_and, Bool.false_eq_true, if_false]

/-- Witness for `c4_placeholder_preserved`: a transform stage that maps
every node to `{"type": "replaced"}` still leaves the placeholder entry
`{"schema_ref": ..., "ref": ...}` unchanged in the output definitions
list, while the inner schema is replaced. -/
theorem c4_placeholder_witness :
    handle_definitions_schema (σ := Unit)
      (fun _ => pure (.vNode 50 [("type", .vStr "replaced")])) false
      (.vNode 0 [("type", .vStr "definitions"),
        ("schema", .vNode 1 [("type", .vStr "int")]),
        ("definitions", .vList [.vNode 2 [("type", .vStr "definition-ref"),
          ("schema_ref", .vStr "X"), ("ref", .vStr "Y")]])]) ⟨10, ()⟩ =
      some (.vNode 0 [("type", .vStr "definitions"),
        ("schema", .vNode 50 [("type", .vStr "replaced")]),
        ("definitions", .vList [.vNode 2 [("type", .vStr "definition-ref"),
          ("schema_ref", .vStr "X"), ("ref", .vStr "Y")]])], ⟨10, ()⟩) :=
  (c4_placeholder_preserved (σ := Unit)
      (fun _ => pure (.vNode 50 [("type", .vStr "replaced")])) ⟨10, ()⟩).2
    0 [("type", .vStr "definitions"),
       ("schema", .vNode 1 [("type", .vStr "int")]),
       ("definitions", .vList [.vNode 2 [("type", .vStr "definition-ref"),
         ("schema_ref", .vStr "X"), ("ref", .vStr "Y")]])]
    2 [("type", .vStr "definition-ref"), ("schema_ref", .vStr "X"),
       ("ref", .vStr "Y")]
    (.vNode 1 [("type", .vStr "int")])
    (.vNode 50 [("type", .vStr "replaced")])
    (.vNode 50 [("type", .vStr "replaced")])
    ⟨10, ()⟩ ⟨10, ()⟩ rfl rfl rfl rfl rfl rfl

/-! ### Claim C5 — definitions-container pruning -/

/-- Claim C5, confirmed.  After processing, if the rebuilt definitions
list is empty and the container carries exactly three attributes
(`len(schema) == 3`), the handler discards the container and returns the
transformed inner node; otherwise it returns the container — the same
object under `copy=false`, a fresh copy (id drawn from the counter) under
`copy=true` — holding the rebuilt definitions list and the transformed
inner node. -/
theorem c5_definitions_pruning {σ : Type} (wk : Val → M σ Val) (cp : Bool)
    (i : Nat) (a : List (String × Val)) (l : List Val) (inner : Val)
    (nd : List Val) (inner' : Val) (st st₁ st₂ : WSt σ)
    (hdefs : alGet "definitions" a = some (.vList l))
    (hinner : alGet "schema" a = some inner)
    (hwd : walkDefinitions wk l st = some (nd, st₁))
    (hwi : wk inner st₁ = some (inner', st₂)) :
    (nd = [] → a.length = 3 →
      handle_definitions_schema wk cp (.vNode i a) st = some (inner', st₂)) ∧
    ((nd.isEmpty && a.length == 3) = false →
      handle_definitions_schema wk cp (.vNode i a) st =
        some (.vNode (if cp then st₂.ctr else i)
          (alSet "definitions" (.vList nd) (alSet "schema" inner' a)),
          if cp then ⟨st₂.ctr + 1, st₂.user⟩ else st₂)) := by
  constructor
  · intro hnil hlen
    subst hnil
    simp [handle_definitions_schema, reqGet, hdefs, asList, hwd, hinner, hwi,
      dictLen, hlen]
  · intro hcond
    simp only [handle_definitions_schema, reqGet, hdefs, M.pure_bind, asList,
      M.bind_def, hwd, hinner, hwi, dictLen, hcond, Bool.false_eq_true,
      if_false, _copy_schema, M.freshId_def, setK, M.pure_def]
    cases cp <;> simp [setK]

/-- Witness for `c5_definitions_pruning`: under a pass-through transform
stage, a bare three-attribute definitions container with an empty
definitions list collapses to its inner node, while the same container
carrying an extra `"ref"` attribute (four attributes) is kept, rebuilt as
a fresh copy under `copy=true`. -/
theorem c5_definitions_pruning_witness :
    handle_definitions_schema (σ := Unit) (fun v => pure v) true
      (.vNode 0 [("type", .vStr "definitions"),
        ("schema", .vNode 1 [("type", .vStr "int")]),
        ("definitions", .vList [])]) ⟨4, ()⟩ =
      some (.vNode 1 [("type", .vStr "int")], ⟨4, ()⟩) ∧
    handle_definitions_schema (σ := Unit) (fun v => pure v) true
      (.vNode 0 [("type", .vStr "definitions"),
        ("schema", .vNode 1 [("type", .vStr "int")]),
        ("definitions", .vList []), ("ref", .vStr "r")]) ⟨4, ()⟩ =
      some (.vNode 4 [("type", .vStr "definitions"),
        ("schema", .vNode 1 [("type", .vStr "int")]),
        ("definitions", .vList []), ("ref", .vStr "r")], ⟨5, ()⟩) := by
  constructor
  · exact (c5_definitions_pruning (σ := Unit) (fun v => pure v) true 0
      [("type", .vStr "definitions"),
       ("schema", .vNode 1 [("type", .vStr "int")]),
       ("definitions", .vList [])] [] (.vNode 1 [("type", .vStr "int")]) []
      (.vNode 1 [("type", .vStr "int")]) ⟨4, ()⟩ ⟨4, ()⟩ ⟨4, ()⟩
      rfl rfl rfl rfl).1 rfl rfl
  · exact (c5_definitions_pruning (σ := Unit) (fun v => pure v) true 0
      [("type", .vStr "definitions"),
       ("schema", .vNode 1 [("type", .vStr "int")]),
       ("definitions", .vList []), ("ref", .vStr "r")] []
      (.vNode 1 [("type", .vStr "int")]) []
      (.vNode 1 [("type", .vStr "int")]) ⟨4, ()⟩ ⟨4, ()⟩ ⟨4, ()⟩
      rfl rfl rfl rfl).2 rfl

/-! ### Claim C6 — non-placeholder entries kept iff the result keeps "ref" -/

/-- Claim C6, confirmed.  A non-placeholder definition entry (not carrying
both `"schema_ref"` and `"ref"`) is walked, and the walk's result is
appended to the output definitions list exactly when that result still
carries a `"ref"` attribute; a result that lost its `"ref"` is omitted. -/
theorem c6_ref_filter {σ : Type} (wk : Val → M σ Val) (st : WSt σ)
    (rest : List Val) (di : Nat) (da : List (String × Val)) (ui : Nat)
    (ua : List (String × Val)) (st₁ : WSt σ)
    (hnp : (alHas "schema_ref" da && alHas "ref" da) = false)
    (hw : wk (.vNode di da) st = some (.vNode ui ua, st₁)) :
    walkDefinitions wk (.vNode di da :: rest) st =
      (match walkDefinitions wk rest st₁ with
       | none => none
       | some (rest', st₂) =>
         some ((if alHas "ref" ua then .vNode ui ua :: rest' else rest'), st₂)) := by
  cases hsr : alHas "schema_ref" da
  · simp only [walkDefinitions, hasK, M.pure_bind, hsr, Bool.false_eq_true,
      if_false, M.bind_def, hw]
    rcases hr : walkDefinitions wk rest st₁ with _ | ⟨rest', st₂⟩ <;>
      simp only [hr, M.pure_def]
  · rw [hsr] at hnp
    simp only [Bool.true_and] at hnp
    simp only [walkDefinitions, hasK, M.pure_bind, hsr, if_true, hnp,
      Bool.false_eq_true, if_false, M.bind_def, hw]
    rcases hr : walkDefinitions wk rest st₁ with _ | ⟨rest', st₂⟩ <;>
      simp only [hr, M.pure_def]

/-- Witness for `c6_ref_filter`: a transform stage that strips the entry's
`"ref"` makes the rebuilt definitions list empty; a pass-through stage
keeps the entry. -/
theorem c6_ref_filter_witness :
    walkDefinitions (σ := Unit) (fun _ => pure (.vNode 9 [("type", .vStr "int")]))
      [.vNode 2 [("type", .vStr "int"), ("ref", .vStr "r")]] ⟨0, ()⟩ =
      some ([], ⟨0, ()⟩) ∧
    walkDefinitions (σ := Unit) (fun v => pure v)
      [.vNode 2 [("type", .vStr "int"), ("ref", .vStr "r")]] ⟨0, ()⟩ =
      some ([.vNode 2 [("type", .vStr "int"), ("ref", .vStr "r")]], ⟨0, ()⟩) := by
  constructor
  · exact c6_ref_filter (σ := Unit)
      (fun _ => pure (.vNode 9 [("type", .vStr "int")])) ⟨0, ()⟩ [] 2
      [("type", .vStr "int"), ("ref", .vStr "r")] 9 [("type", .vStr "int")]
      ⟨0, ()⟩ rfl rfl
  · exact c6_ref_filter (σ := Unit) (fun v => pure v) ⟨0, ()⟩ [] 2
      [("type", .vStr "int"), ("ref", .vStr "r")] 2
      [("type", .vStr "int"), ("ref", .vStr "r")] ⟨0, ()⟩ rfl rfl

/-! ### Round-trip lemmas for the loop helpers -/

theorem walkEach_ok {σ : Type} {cp : Bool} {wk : Val → M σ Val}
    (hwk : IdWalkOk cp wk) :
    ∀ (l : List Val) (st : WSt σ) l' st',
      okS (stripIds (.vList l)) = true →
      walkEach wk l st = some (l', st') →
      stripList l' = stripList l ∧ st.ctr ≤ st'.ctr ∧
        (cp = false → l' = l ∧ st' = st) := by
  intro l
  induction l with
  | nil =>
    intro st l' st' hok h
    rw [show walkEach wk [] = (pure [] : M σ (List Val)) from rfl,
      M.pure_eq_some] at h
    obtain ⟨rfl, rfl⟩ := h
    exact ⟨rfl, le_refl _, fun _ => ⟨rfl, rfl⟩⟩
  | cons v tl ih =>
    intro st l' st' hok h
    rw [okS_strip_list_cons, Bool.and_eq_true] at hok
    rw [show walkEach wk (v :: tl) =
        (wk v >>= fun x => walkEach wk tl >>= fun rest' =>
          pure (x :: rest')) from rfl] at h
    rw [M.bind_eq_some] at h
    obtain ⟨x, st₁, hx, h⟩ := h
    rw [M.bind_eq_some] at h
    obtain ⟨rest', st₂, hrest, h⟩ := h
    obtain ⟨-, hstrip, hctr, hexact⟩ := hwk v st x st₁ hok.1 hx
    obtain ⟨hstrip', hctr', hexact'⟩ := ih st₁ rest' st₂ hok.2 hrest
    rw [M.pure_eq_some] at h
    obtain ⟨rfl, rfl⟩ := h
    refine ⟨?_, le_trans hctr hctr', ?_⟩
    · simp [stripList, hstrip, hstrip']
    · intro hcp
      obtain ⟨rfl, rfl⟩ := hexact hcp
      obtain ⟨rfl, rfl⟩ := hexact' hcp
      exact ⟨rfl, rfl⟩

theorem walkUnionChoices_cons_ne {σ : Type} (wk : Val → M σ Val) (v : Val)
    (rest : List Val) (hnp : ∀ x y, v ≠ .vPair x y) :
    walkUnionChoices wk (v :: rest) =
      (wk v >>= fun x => walkUnionChoices wk rest >>= fun rest' =>
        pure (x :: rest')) := by
  cases v
  case vPair x y => exact absurd rfl (hnp x y)
  all_goals rfl

theorem walkUnionChoices_ok {σ : Type} {cp : Bool} {wk : Val → M σ Val}
    (hwk : IdWalkOk cp wk) :
    ∀ (l : List Val) (st : WSt σ) l' st',
      okS (stripIds (.vList l)) = true →
      walkUnionChoices wk l st = some (l', st') →
      stripList l' = stripList l ∧ st.ctr ≤ st'.ctr ∧
        (cp = false → l' = l ∧ st' = st) := by
  intro l
  induction l with
  | nil =>
    intro st l' st' hok h
    rw [show walkUnionChoices wk [] = (pure [] : M σ (List Val)) from rfl,
      M.pure_eq_some] at h
    obtain ⟨rfl, rfl⟩ := h
    exact ⟨rfl, le_refl _, fun _ => ⟨rfl, rfl⟩⟩
  | cons v tl ih =>
    intro st l' st' hok h
    rw [okS_strip_list_cons, Bool.and_eq_true] at hok
    by_cases hp : ∃ x y, v = Val.vPair x y
    · obtain ⟨pa, pb, rfl⟩ := hp
      rw [show walkUnionChoices wk (Val.vPair pa pb :: tl) =
          (wk pa >>= fun x => walkUnionChoices wk tl >>= fun rest' =>
            pure (Val.vPair x pb :: rest')) from rfl] at h
      rw [M.bind_eq_some] at h
      obtain ⟨x, st₁, hx, h⟩ := h
      rw [M.bind_eq_some] at h
      obtain ⟨rest', st₂, hrest, h⟩ := h
      obtain ⟨-, hstrip, hctr, hexact⟩ :=
        hwk pa st x st₁ (okS_strip_pair pa pb hok.1).1 hx
      obtain ⟨hstrip', hctr', hexact'⟩ := ih st₁ rest' st₂ hok.2 hrest
      rw [M.pure_eq_some] at h
      obtain ⟨rfl, rfl⟩ := h
      refine ⟨?_, le_trans hctr hctr', ?_⟩
      · simp [stripList, stripIds, hstrip, hstrip']
      · intro hcp
        obtain ⟨rfl, rfl⟩ := hexact hcp
        obtain ⟨rfl, rfl⟩ := hexact' hcp
        exact ⟨rfl, rfl⟩
    · have hnp : ∀ x y, v ≠ Val.vPair x y := fun x y hxy => hp ⟨x, y, hxy⟩
      rw [walkUnionChoices_cons_ne wk v tl hnp] at h
      rw [M.bind_eq_some] at h
      obtain ⟨x, st₁, hx, h⟩ := h
      rw [M.bind_eq_some] at h
      obtain ⟨rest', st₂, hrest, h⟩ := h
      obtain ⟨-, hstrip, hctr, hexact⟩ := hwk v st x st₁ hok.1 hx
      obtain ⟨hstrip', hctr', hexact'⟩ := ih st₁ rest' st₂ hok.2 hrest
      rw [M.pure_eq_some] at h
      obtain ⟨rfl, rfl⟩ := h
      refine ⟨?_, le_trans hctr hctr', ?_⟩
      · simp [stripList, hstrip, hstrip']
      · intro hcp
        obtain ⟨rfl, rfl⟩ := hexact hcp
        obtain ⟨rfl, rfl⟩ := hexact' hcp
        exact ⟨rfl, rfl⟩

theorem walkTaggedChoices_cons {σ : Type} (wk : Val → M σ Val) (k v : Val)
    (rest : List (Val × Val)) :
    walkTaggedChoices wk ((k, v) :: rest) =
      ((match v with
        | .vStr _ | .vInt _ | .vBool _ => pure v
        | _ => wk v) >>= fun v' =>
        walkTaggedChoices wk rest >>= fun rest' =>
          pure ((k, v') :: rest')) := by
  cases v <;> rfl

theorem walkTaggedChoices_ok {σ : Type} {cp : Bool} {wk : Val → M σ Val}
    (hwk : IdWalkOk cp wk) :
    ∀ (l : List (Val × Val)) (st : WSt σ) l' st',
      okS (stripIds (.vDict l)) = true →
      walkTaggedChoices wk l st = some (l', st') →
      stripEntries l' = stripEntries l ∧ st.ctr ≤ st'.ctr ∧
        (cp = false → l' = l ∧ st' = st) := by
  intro l
  induction l with
  | nil =>
    intro st l' st' hok h
    rw [show walkTaggedChoices wk [] = (pure [] : M σ (List (Val × Val)))
      from rfl, M.pure_eq_some] at h
    obtain ⟨rfl, rfl⟩ := h
    exact ⟨rfl, le_refl _, fun _ => ⟨rfl, rfl⟩⟩
  | cons hd tl ih =>
    obtain ⟨k, v⟩ := hd
    intro st l' st' hok h
    rw [okS_strip_entries_cons, Bool.and_eq_true, Bool.and_eq_true] at hok
    rw [walkTaggedChoices_cons] at h
    rw [M.bind_eq_some] at h
    obtain ⟨v', st₁, hv', h⟩ := h
    rw [M.bind_eq_some] at h
    obtain ⟨rest', st₂, hrest, h⟩ := h
    have hv'strip : stripIds v' = stripIds v ∧ st.ctr ≤ st₁.ctr ∧
        (cp = false → v' = v ∧ st₁ = st) := by
      rcases v with _ | _ | _ | _ | _ | _ | _ | _
      case vStr s =>
        rw [show ((match Val.vStr s with
            | .vStr _ | .vInt _ | .vBool _ => pure (Val.vStr s)
            | _ => wk (Val.vStr s)) : M σ Val) = pure (Val.vStr s) from rfl,
          M.pure_eq_some] at hv'
        obtain ⟨rfl, rfl⟩ := hv'
        exact ⟨rfl, le_refl _, fun _ => ⟨rfl, rfl⟩⟩
      case vInt n =>
        rw [show ((match Val.vInt n with
            | .vStr _ | .vInt _ | .vBool _ => pure (Val.vInt n)
            | _ => wk (Val.vInt n)) : M σ Val) = pure (Val.vInt n) from rfl,
          M.pure_eq_some] at hv'
        obtain ⟨rfl, rfl⟩ := hv'
        exact ⟨rfl, le_refl _, fun _ => ⟨rfl, rfl⟩⟩
      case vBool b =>
        rw [show ((match Val.vBool b with
            | .vStr _ | .vInt _ | .vBool _ => pure (Val.vBool b)
            | _ => wk (Val.vBool b)) : M σ Val) = pure (Val.vBool b) from rfl,
          M.pure_eq_some] at hv'
        obtain ⟨rfl, rfl⟩ := hv'
        exact ⟨rfl, le_refl _, fun _ => ⟨rfl, rfl⟩⟩
      all_goals
        obtain ⟨-, hstrip, hctr, hexact⟩ := hwk _ st v' st₁ hok.2.1 hv'
      all_goals exact ⟨hstrip, hctr, hexact⟩
    obtain ⟨hstrip, hctr, hexact⟩ := hv'strip
    obtain ⟨hstrip', hctr', hexact'⟩ := ih st₁ rest' st₂ hok.2.2 hrest
    rw [M.pure_eq_some] at h
    obtain ⟨rfl, rfl⟩ := h
    refine ⟨?_, le_trans hctr hctr', ?_⟩
    · simp [stripEntries, hstrip, hstrip']
    · intro hcp
      obtain ⟨rfl, rfl⟩ := hexact hcp
      obtain ⟨rfl, rfl⟩ := hexact' hcp
      exact ⟨rfl, rfl⟩

theorem walkComputedField_ok {σ : Type} {cp : Bool} {wk : Val → M σ Val}
    (hwk : IdWalkOk cp wk) (cf : Val) (st : WSt σ) (rf : Val) (st' : WSt σ)
    (hok : okS (stripIds cf) = true)
    (h : walkComputedField wk cp cf st = some (rf, st')) :
    stripIds rf = stripIds cf ∧ st.ctr ≤ st'.ctr ∧
      (cp = false → rf = cf ∧ st' = st) := by
  rw [show walkComputedField wk cp cf =
      (_copy_schema cp cf >>= fun rf₀ =>
        reqGet cf "return_schema" >>= fun ret =>
          wk ret >>= fun x => setK rf₀ "return_schema" x) from rfl] at h
  rw [M.bind_eq_some] at h
  obtain ⟨rf₀, st₁, hcp, h⟩ := h
  rw [M.bind_eq_some] at h
  obtain ⟨ret, st₂, hret, h⟩ := h
  rw [M.bind_eq_some] at h
  obtain ⟨x, st₃, hx, hset⟩ := h
  obtain ⟨hc1, hc2, hc3, hc4⟩ := _copy_schema_inv hcp
  obtain ⟨hst21, ci, ca, hcf, hget⟩ := reqGet_inv hret
  subst hcf
  subst hst21
  obtain ⟨j, hrf₀, -⟩ := hc4 ci ca rfl
  subst hrf₀
  have hokret : okS (stripIds ret) = true := okS_strip_attr ci ca _ ret hok hget
  obtain ⟨-, hxstrip, hxctr, hxexact⟩ := hwk ret _ x _ hokret hx
  obtain ⟨hst3, i₀, a₀, heq, hrf⟩ := setK_inv hset
  subst hrf
  subst hst3
  cases heq
  refine ⟨?_, le_trans hc1 hxctr, ?_⟩
  · rw [show stripIds (Val.vNode j (alSet "return_schema" x ca)) =
      Val.vNode 0 (stripAttrs (alSet "return_schema" x ca)) from rfl]
    rw [stripAttrs_alSet_congr _ x ret ca hget hxstrip]
    rfl
  · intro hcp'
    obtain ⟨hrf₀, hst1⟩ := hc3 hcp'
    subst hst1
    obtain ⟨hxret, hst31⟩ := hxexact hcp'
    subst hxret
    subst hst31
    cases hrf₀
    rw [alSet_self _ _ _ hget]
    exact ⟨rfl, rfl⟩

theorem walkFieldRecord_ok {σ : Type} {cp : Bool} {wk : Val → M σ Val}
    (hwk : IdWalkOk cp wk) (v : Val) (st : WSt σ) (rf : Val) (st' : WSt σ)
    (hok : okS (stripIds v) = true)
    (h : walkFieldRecord wk cp v st = some (rf, st')) :
    stripIds rf = stripIds v ∧ st.ctr ≤ st'.ctr ∧
      (cp = false → rf = v ∧ st' = st) := by
  rw [show walkFieldRecord wk cp v =
      (_copy_schema cp v >>= fun rf₀ =>
        reqGet v "schema" >>= fun sub =>
          wk sub >>= fun x => setK rf₀ "schema" x) from rfl] at h
  rw [M.bind_eq_some] at h
  obtain ⟨rf₀, st₁, hcp, h⟩ := h
  rw [M.bind_eq_some] at h
  obtain ⟨sub, st₂, hsub, h⟩ := h
  rw [M.bind_eq_some] at h
  obtain ⟨x, st₃, hx, hset⟩ := h
  obtain ⟨hc1, hc2, hc3, hc4⟩ := _copy_schema_inv hcp
  obtain ⟨hst21, ci, ca, hcf, hget⟩ := reqGet_inv hsub
  subst hcf
  subst hst21
  obtain ⟨j, hrf₀, -⟩ := hc4 ci ca rfl
  subst hrf₀
  have hoksub : okS (stripIds sub) = true := okS_strip_attr ci ca _ sub hok hget
  obtain ⟨-, hxstrip, hxctr, hxexact⟩ := hwk sub _ x _ hoksub hx
  obtain ⟨hst3, i₀, a₀, heq, hrf⟩ := setK_inv hset
  subst hrf
  subst hst3
  cases heq
  refine ⟨?_, le_trans hc1 hxctr, ?_⟩
  · rw [show stripIds (Val.vNode j (alSet "schema" x ca)) =
      Val.vNode 0 (stripAttrs (alSet "schema" x ca)) from rfl]
    rw [stripAttrs_alSet_congr _ x sub ca hget hxstrip]
    rfl
  · intro hcp'
    obtain ⟨hrf₀, hst1⟩ := hc3 hcp'
    subst hst1
    obtain ⟨hxsub, hst31⟩ := hxexact hcp'
    subst hxsub
    subst hst31
    cases hrf₀
    rw [alSet_self _ _ _ hget]
    exact ⟨rfl, rfl⟩

theorem walkComputedFields_ok {σ : Type} {cp : Bool} {wk : Val → M σ Val}
    (hwk : IdWalkOk cp wk) :
    ∀ (l : List Val) (st : WSt σ) l' st',
      okS (stripIds (.vList l)) = true →
      walkComputedFields wk cp l st = some (l', st') →
      stripList l' = stripList l ∧ st.ctr ≤ st'.ctr ∧
        (cp = false → l' = l ∧ st' = st) := by
  intro l
  induction l with
  | nil =>
    intro st l' st' hok h
    rw [show walkComputedFields wk cp [] = (pure [] : M σ (List Val)) from rfl,
      M.pure_eq_some] at h
    obtain ⟨rfl, rfl⟩ := h
    exact ⟨rfl, le_refl _, fun _ => ⟨rfl, rfl⟩⟩
  | cons v tl ih =>
    intro st l' st' hok h
    rw [okS_strip_list_cons, Bool.and_eq_true] at hok
    rw [show walkComputedFields wk cp (v :: tl) =
        (walkComputedField wk cp v >>= fun rf =>
          walkComputedFields wk cp tl >>= fun rest' =>
            pure (rf :: rest')) from rfl] at h
    rw [M.bind_eq_some] at h
    obtain ⟨rf, st₁, hrf, h⟩ := h
    rw [M.bind_eq_some] at h
    obtain ⟨rest', st₂, hrest, h⟩ := h
    obtain ⟨hstrip, hctr, hexact⟩ := walkComputedField_ok hwk v st rf st₁ hok.1 hrf
    obtain ⟨hstrip', hctr', hexact'⟩ := ih st₁ rest' st₂ hok.2 hrest
    rw [M.pure_eq_some] at h
    obtain ⟨rfl, rfl⟩ := h
    refine ⟨?_, le_trans hctr hctr', ?_⟩
    · simp [stripList, hstrip, hstrip']
    · intro hcp
      obtain ⟨rfl, rfl⟩ := hexact hcp
      obtain ⟨rfl, rfl⟩ := hexact' hcp
      exact ⟨rfl, rfl⟩

theorem walkFieldList_ok {σ : Type} {cp : Bool} {wk : Val → M σ Val}
    (hwk : IdWalkOk cp wk) :
    ∀ (l : List Val) (st : WSt σ) l' st',
      okS (stripIds (.vList l)) = true →
      walkFieldList wk cp l st = some (l', st') →
      stripList l' = stripList l ∧ st.ctr ≤ st'.ctr ∧
        (cp = false → l' = l ∧ st' = st) := by
  intro l
  induction l with
  | nil =>
    intro st l' st' hok h
    rw [show walkFieldList wk cp [] = (pure [] : M σ (List Val)) from rfl,
      M.pure_eq_some] at h
    obtain ⟨rfl, rfl⟩ := h
    exact ⟨rfl, le_refl _, fun _ => ⟨rfl, rfl⟩⟩
  | cons v tl ih =>
    intro st l' st' hok h
    rw [okS_strip_list_cons, Bool.and_eq_true] at hok
    rw [show walkFieldList wk cp (v :: tl) =
        (walkFieldRecord wk cp v >>= fun rf =>
          walkFieldList wk cp tl >>= fun rest' =>
            pure (rf :: rest')) from rfl] at h
    rw [M.bind_eq_some] at h
    obtain ⟨rf, st₁, hrf, h⟩ := h
    rw [M.bind_eq_some] at h
    obtain ⟨rest', st₂, hrest, h⟩ := h
    obtain ⟨hstrip, hctr, hexact⟩ := walkFieldRecord_ok hwk v st rf st₁ hok.1 hrf
    obtain ⟨hstrip', hctr', hexact'⟩ := ih st₁ rest' st₂ hok.2 hrest
    rw [M.pure_eq_some] at h
    obtain ⟨rfl, rfl⟩ := h
    refine ⟨?_, le_trans hctr hctr', ?_⟩
    · simp [stripList, hstrip, hstrip']
    · intro hcp
      obtain ⟨rfl, rfl⟩ := hexact hcp
      obtain ⟨rfl, rfl⟩ := hexact' hcp
      exact ⟨rfl, rfl⟩

theorem walkFieldsMap_ok {σ : Type} {cp : Bool} {wk : Val → M σ Val}
    (hwk : IdWalkOk cp wk) :
    ∀ (l : List (Val × Val)) (st : WSt σ) l' st',
      okS (stripIds (.vDict l)) = true →
      walkFieldsMap wk cp l st = some (l', st') →
      stripEntries l' = stripEntries l ∧ st.ctr ≤ st'.ctr ∧
        (cp = false → l' = l ∧ st' = st) := by
  intro l
  induction l with
  | nil =>
    intro st l' st' hok h
    rw [show walkFieldsMap wk cp [] = (pure [] : M σ (List (Val × Val)))
      from rfl, M.pure_eq_some] at h
    obtain ⟨rfl, rfl⟩ := h
    exact ⟨rfl, le_refl _, fun _ => ⟨rfl, rfl⟩⟩
  | cons hd tl ih =>
    obtain ⟨k, v⟩ := hd
    intro st l' st' hok h
    rw [okS_strip_entries_cons, Bool.and_eq_true, Bool.and_eq_true] at hok
    rw [show walkFieldsMap wk cp ((k, v) :: tl) =
        (walkFieldRecord wk cp v >>= fun rf =>
          walkFieldsMap wk cp tl >>= fun rest' =>
            pure ((k, rf) :: rest')) from rfl] at h
    rw [M.bind_eq_some] at h
    obtain ⟨rf, st₁, hrf, h⟩ := h
    rw [M.bind_eq_some] at h
    obtain ⟨rest', st₂, hrest, h⟩ := h
    obtain ⟨hstrip, hctr, hexact⟩ :=
      walkFieldRecord_ok hwk v st rf st₁ hok.2.1 hrf
    obtain ⟨hstrip', hctr', hexact'⟩ := ih st₁ rest' st₂ hok.2.2 hrest
    rw [M.pure_eq_some] at h
    obtain ⟨rfl, rfl⟩ := h
    refine ⟨?_, le_trans hctr hctr', ?_⟩
    · simp [stripEntries, hstrip, hstrip']
    · intro hcp
      obtain ⟨rfl, rfl⟩ := hexact hcp
      obtain ⟨rfl, rfl⟩ := hexact' hcp
      exact ⟨rfl, rfl⟩

theorem walkDefinitions_ok {σ : Type} {cp : Bool} {wk : Val → M σ Val}
    (hwk : IdWalkOk cp wk) :
    ∀ (l : List Val) (st : WSt σ) nd st',
      okS (stripIds (.vList l)) = true →
      (stripList l).all entryHasRef = true →
      walkDefinitions wk l st = some (nd, st') →
      stripList nd = stripList l ∧ st.ctr ≤ st'.ctr ∧
        (cp = false → nd = l ∧ st' = st) := by
  intro l
  induction l with
  | nil =>
    intro st nd st' hok hall h
    rw [show walkDefinitions wk [] = (pure [] : M σ (List Val)) from rfl,
      M.pure_eq_some] at h
    obtain ⟨rfl, rfl⟩ := h
    exact ⟨rfl, le_refl _, fun _ => ⟨rfl, rfl⟩⟩
  | cons d tl ih =>
    intro st nd st' hok hall h
    rw [okS_strip_list_cons, Bool.and_eq_true] at hok
    rw [show stripList (d :: tl) = stripIds d :: stripList tl from rfl,
      List.all_cons, Bool.and_eq_true] at hall
    simp only [walkDefinitions] at h
    rw [M.bind_eq_some] at h
    obtain ⟨h₁, st₀', hh₁, h⟩ := h
    obtain ⟨hsteq, di, da, hd, hh₁v⟩ := hasK_inv hh₁
    subst hd
    subst hh₁v
    subst hsteq
    have href : alHas "ref" da = true := by
      have hh := hall.1
      rw [show stripIds (Val.vNode di da) = Val.vNode 0 (stripAttrs da)
        from rfl] at hh
      rw [show entryHasRef (Val.vNode 0 (stripAttrs da)) =
        alHas "ref" (stripAttrs da) from rfl, alHas_stripAttrs] at hh
      exact hh
    cases hsr : alHas "schema_ref" da <;> rw [hsr] at h
    · rw [M.pure_bind] at h
      simp only [Bool.false_eq_true, if_false] at h
      rw [M.bind_eq_some] at h
      obtain ⟨u, st₁, hu, h⟩ := h
      rw [M.bind_eq_some] at h
      obtain ⟨keep, st₂, hkeep, h⟩ := h
      rw [M.bind_eq_some] at h
      obtain ⟨rest', st₃, hrest, h⟩ := h
      obtain ⟨⟨ui, ua, huv, -⟩, hustrip, huctr, huexact⟩ :=
        hwk (.vNode di da) _ u _ hok.1 hu
      subst huv
      obtain ⟨hsteq₂, ui', ua', huv', hkeepv⟩ := hasK_inv hkeep
      cases huv'
      subst hkeepv
      subst hsteq₂
      have hua : stripAttrs ua = stripAttrs da := by
        rw [show stripIds (Val.vNode ui ua) = Val.vNode 0 (stripAttrs ua)
          from rfl, show stripIds (Val.vNode di da) =
          Val.vNode 0 (stripAttrs da) from rfl] at hustrip
        injection hustrip with h1 h2
      have hkeepT : alHas "ref" ua = true := by
        rw [← alHas_stripAttrs, hua, alHas_stripAttrs]
        exact href
      rw [hkeepT] at h
      simp only [if_true] at h
      obtain ⟨hstripL, hctrL, hexactL⟩ := ih _ rest' st₃ hok.2 hall.2 hrest
      rw [M.pure_eq_some] at h
      obtain ⟨rfl, rfl⟩ := h
      refine ⟨?_, le_trans huctr hctrL, ?_⟩
      · rw [show stripList (Val.vNode ui ua :: rest') =
          stripIds (Val.vNode ui ua) :: stripList rest' from rfl, hustrip,
          hstripL]
        rfl
      · intro hcp
        obtain ⟨hud, hst₁⟩ := huexact hcp
        obtain ⟨hrest', hst₃⟩ := hexactL hcp
        subst hrest'
        rw [hud, hst₃, hst₁]
        exact ⟨rfl, rfl⟩
    · rw [if_pos rfl] at h
      rw [M.bind_eq_some] at h
      obtain ⟨y, sty, hy, h⟩ := h
      obtain ⟨hsteqy, dy, day, hdy, hyv⟩ := hasK_inv hy
      cases hdy
      subst hyv
      subst hsteqy
      rw [href] at h
      simp only [if_true] at h
      rw [M.bind_eq_some] at h
      obtain ⟨u, st₁, hu, h⟩ := h
      rw [M.bind_eq_some] at h
      obtain ⟨rest', st₂, hrest, h⟩ := h
      obtain ⟨-, -, huctr, huexact⟩ := hwk (.vNode di da) _ u _ hok.1 hu
      obtain ⟨hstripL, hctrL, hexactL⟩ := ih _ rest' st₂ hok.2 hall.2 hrest
      rw [M.pure_eq_some] at h
      obtain ⟨rfl, rfl⟩ := h
      refine ⟨?_, le_trans huctr hctrL, ?_⟩
      · rw [show stripList (Val.vNode di da :: rest') =
          stripIds (Val.vNode di da) :: stripList rest' from rfl, hstripL]
        rfl
      · intro hcp
        obtain ⟨-, hst₁⟩ := huexact hcp
        obtain ⟨hrest', hst₂⟩ := hexactL hcp
        subst hrest'
        rw [hst₂, hst₁]
        exact ⟨rfl, rfl⟩

/-! ### Generic handler-step lemmas -/

theorem okS_strip_congr_node {i j : Nat} {b a : List (String × Val)}
    (hb : stripAttrs b = stripAttrs a)
    (hok : okS (stripIds (.vNode i a)) = true) :
    okS (stripIds (.vNode j b)) = true := by
  rw [show stripIds (Val.vNode j b) = Val.vNode 0 (stripAttrs b) from rfl, hb]
  rw [show stripIds (Val.vNode i a) = Val.vNode 0 (stripAttrs a) from rfl] at hok
  exact hok

theorem getD_isNotNone {o : Option Val}
    (h : (o.getD .vNone).isNotNone = true) : o = some (o.getD .vNone) := by
  cases o
  · simp [Val.isNotNone] at h
  · rfl

theorem getD_truthy {o : Option Val}
    (h : (o.getD .vNone).truthy = true) : o = some (o.getD .vNone) := by
  cases o
  · simp [Val.truthy] at h
  · rfl

/-- Optional-child step (`schema.get(k)` + `is not None` + write-back). -/
theorem optChild_ok {σ : Type} {cp : Bool} {wk : Val → M σ Val}
    (hwk : IdWalkOk cp wk) (k : String) (i : Nat) (a : List (String × Val))
    (st : WSt σ) (r : Val) (st' : WSt σ)
    (hok : okS (stripIds (.vNode i a)) = true)
    (h : (pyGetM (.vNode i a) k >>= fun sub =>
      if sub.isNotNone then wk sub >>= fun x => setK (.vNode i a) k x
      else pure (.vNode i a)) st = some (r, st')) :
    (∃ b, r = .vNode i b ∧ stripAttrs b = stripAttrs a) ∧ st.ctr ≤ st'.ctr ∧
      (cp = false → r = .vNode i a ∧ st' = st) := by
  rw [show pyGetM (.vNode i a) k =
      (pure ((alGet k a).getD .vNone) : M σ Val) from rfl, M.pure_bind] at h
  cases hni : ((alGet k a).getD .vNone).isNotNone <;> rw [hni] at h
  · simp only [Bool.false_eq_true, if_false, M.pure_eq_some] at h
    obtain ⟨rfl, rfl⟩ := h
    exact ⟨⟨a, rfl, rfl⟩, le_refl _, fun _ => ⟨rfl, rfl⟩⟩
  · simp only [if_true] at h
    rw [M.bind_eq_some] at h
    obtain ⟨x, st₁, hx, hset⟩ := h
    have hsome := getD_isNotNone hni
    have hoksub : okS (stripIds ((alGet k a).getD .vNone)) = true :=
      okS_strip_attr i a k _ hok hsome
    obtain ⟨-, hxstrip, hxctr, hxexact⟩ := hwk _ st x st₁ hoksub hx
    obtain ⟨hst', i', a', heq, hr⟩ := setK_inv hset
    cases heq
    subst hr
    subst hst'
    refine ⟨⟨alSet k x a, ?_, stripAttrs_alSet_congr k x _ a hsome hxstrip⟩,
      hxctr, ?_⟩
    · rfl
    · intro hcp
      obtain ⟨hxv, hst⟩ := hxexact hcp
      subst hxv
      subst hst
      rw [alSet_self _ _ _ hsome]
      exact ⟨rfl, rfl⟩

/-- Truthiness-guarded optional-child step (`if values_schema:`). -/
theorem truthyChild_ok {σ : Type} {cp : Bool} {wk : Val → M σ Val}
    (hwk : IdWalkOk cp wk) (k : String) (i : Nat) (a : List (String × Val))
    (st : WSt σ) (r : Val) (st' : WSt σ)
    (hok : okS (stripIds (.vNode i a)) = true)
    (h : (pyGetM (.vNode i a) k >>= fun sub =>
      if sub.truthy then wk sub >>= fun x => setK (.vNode i a) k x
      else pure (.vNode i a)) st = some (r, st')) :
    (∃ b, r = .vNode i b ∧ stripAttrs b = stripAttrs a) ∧ st.ctr ≤ st'.ctr ∧
      (cp = false → r = .vNode i a ∧ st' = st) := by
  rw [show pyGetM (.vNode i a) k =
      (pure ((alGet k a).getD .vNone) : M σ Val) from rfl, M.pure_bind] at h
  cases hni : ((alGet k a).getD .vNone).truthy <;> rw [hni] at h
  · simp only [Bool.false_eq_true, if_false, M.pure_eq_some] at h
    obtain ⟨rfl, rfl⟩ := h
    exact ⟨⟨a, rfl, rfl⟩, le_refl _, fun _ => ⟨rfl, rfl⟩⟩
  · simp only [if_true] at h
    rw [M.bind_eq_some] at h
    obtain ⟨x, st₁, hx, hset⟩ := h
    have hsome := getD_truthy hni
    have hoksub : okS (stripIds ((alGet k a).getD .vNone)) = true :=
      okS_strip_attr i a k _ hok hsome
    obtain ⟨-, hxstrip, hxctr, hxexact⟩ := hwk _ st x st₁ hoksub hx
    obtain ⟨hst', i', a', heq, hr⟩ := setK_inv hset
    cases heq
    subst hr
    subst hst'
    refine ⟨⟨alSet k x a, ?_, stripAttrs_alSet_congr k x _ a hsome hxstrip⟩,
      hxctr, ?_⟩
    · rfl
    · intro hcp
      obtain ⟨hxv, hst⟩ := hxexact hcp
      subst hxv
      subst hst
      rw [alSet_self _ _ _ hsome]
      exact ⟨rfl, rfl⟩

/-- Mandatory-child step (`schema[k]` + write-back). -/
theorem mandChild_ok {σ : Type} {cp : Bool} {wk : Val → M σ Val}
    (hwk : IdWalkOk cp wk) (k : String) (i : Nat) (a : List (String × Val))
    (st : WSt σ) (r : Val) (st' : WSt σ)
    (hok : okS (stripIds (.vNode i a)) = true)
    (h : (reqGet (.vNode i a) k >>= fun sub =>
      wk sub >>= fun x => setK (.vNode i a) k x) st = some (r, st')) :
    (∃ b, r = .vNode i b ∧ stripAttrs b = stripAttrs a) ∧ st.ctr ≤ st'.ctr ∧
      (cp = false → r = .vNode i a ∧ st' = st) := by
  rw [M.bind_eq_some] at h
  obtain ⟨sub, st₀, hsub, h⟩ := h
  obtain ⟨hst₀, i', a', heq, hget⟩ := reqGet_inv hsub
  cases heq
  subst hst₀
  rw [M.bind_eq_some] at h
  obtain ⟨x, st₁, hx, hset⟩ := h
  have hoksub : okS (stripIds sub) = true := okS_strip_attr i a k sub hok hget
  obtain ⟨-, hxstrip, hxctr, hxexact⟩ := hwk sub _ x _ hoksub hx
  obtain ⟨hst', i'', a'', heq₂, hr⟩ := setK_inv hset
  cases heq₂
  subst hr
  subst hst'
  refine ⟨⟨alSet k x a, rfl,
    stripAttrs_alSet_congr k x sub a hget hxstrip⟩, hxctr, ?_⟩
  intro hcp
  obtain ⟨hxv, hst⟩ := hxexact hcp
  subst hxv
  subst hst
  rw [alSet_self _ _ _ hget]
  exact ⟨rfl, rfl⟩

/-- Presence-guarded child step (`if k in schema:` + `schema[k]` +
write-back). -/
theorem presChild_ok {σ : Type} {cp : Bool} {wk : Val → M σ Val}
    (hwk : IdWalkOk cp wk) (k : String) (i : Nat) (a : List (String × Val))
    (st : WSt σ) (r : Val) (st' : WSt σ)
    (hok : okS (stripIds (.vNode i a)) = true)
    (h : (hasK (.vNode i a) k >>= fun hk =>
      if hk then reqGet (.vNode i a) k >>= fun sub =>
        wk sub >>= fun x => setK (.vNode i a) k x
      else pure (.vNode i a)) st = some (r, st')) :
    (∃ b, r = .vNode i b ∧ stripAttrs b = stripAttrs a) ∧ st.ctr ≤ st'.ctr ∧
      (cp = false → r = .vNode i a ∧ st' = st) := by
  rw [show hasK (.vNode i a) k = (pure (alHas k a) : M σ Bool) from rfl,
    M.pure_bind] at h
  cases hk : alHas k a <;> rw [hk] at h
  · simp only [Bool.false_eq_true, if_false, M.pure_eq_some] at h
    obtain ⟨rfl, rfl⟩ := h
    exact ⟨⟨a, rfl, rfl⟩, le_refl _, fun _ => ⟨rfl, rfl⟩⟩
  · simp only [if_true] at h
    exact mandChild_ok hwk k i a st r st' hok h

/-- Mandatory-child step followed by a continuation. -/
theorem mandChildK {σ β : Type} {cp : Bool} {wk : Val → M σ Val}
    (hwk : IdWalkOk cp wk) (k : String) (i : Nat) (a : List (String × Val))
    (st : WSt σ) (K : Val → M σ β) (res : β) (stf : WSt σ)
    (hok : okS (stripIds (.vNode i a)) = true)
    (h : (reqGet (.vNode i a) k >>= fun sub => wk sub >>= fun x =>
      setK (.vNode i a) k x >>= fun s₁ => K s₁) st = some (res, stf))
    (C : Prop)
    (hK : ∀ b st₁, stripAttrs b = stripAttrs a → st.ctr ≤ st₁.ctr →
      (cp = false → b = a ∧ st₁ = st) →
      K (.vNode i b) st₁ = some (res, stf) → C) : C := by
  rw [M.bind_eq_some] at h
  obtain ⟨sub, st₀, hsub, h⟩ := h
  obtain ⟨hst₀, i', a', heq, hget⟩ := reqGet_inv hsub
  cases heq
  subst hst₀
  rw [M.bind_eq_some] at h
  obtain ⟨x, st₁, hx, h⟩ := h
  rw [M.bind_eq_some] at h
  obtain ⟨s₁, st₂, hset, hK'⟩ := h
  have hoksub : okS (stripIds sub) = true := okS_strip_attr i a k sub hok hget
  obtain ⟨-, hxstrip, hxctr, hxexact⟩ := hwk sub _ x _ hoksub hx
  obtain ⟨hst₂, i'', a'', heq₂, hs₁⟩ := setK_inv hset
  cases heq₂
  subst hs₁
  subst hst₂
  refine hK (alSet k x a) _
    (stripAttrs_alSet_congr k x sub a hget hxstrip) hxctr ?_ hK'
  intro hcp
  obtain ⟨hxv, hst⟩ := hxexact hcp
  subst hxv
  subst hst
  exact ⟨alSet_self _ _ _ hget, rfl⟩

/-- Optional-child step followed by a continuation (the do-elaborator
duplicates the continuation into both branches of the bound `if`). -/
theorem optChildK {σ β : Type} {cp : Bool} {wk : Val → M σ Val}
    (hwk : IdWalkOk cp wk) (k : String) (i : Nat) (a : List (String × Val))
    (st : WSt σ) (K : Val → M σ β) (res : β) (stf : WSt σ)
    (hok : okS (stripIds (.vNode i a)) = true)
    (h : (pyGetM (.vNode i a) k >>= fun sub =>
      if sub.isNotNone then
        wk sub >>= fun x => setK (.vNode i a) k x >>= fun s₁ => K s₁
      else pure (.vNode i a) >>= fun s₁ => K s₁) st = some (res, stf))
    (C : Prop)
    (hK : ∀ b st₁, stripAttrs b = stripAttrs a → st.ctr ≤ st₁.ctr →
      (cp = false → b = a ∧ st₁ = st) →
      K (.vNode i b) st₁ = some (res, stf) → C) : C := by
  rw [show pyGetM (.vNode i a) k =
      (pure ((alGet k a).getD .vNone) : M σ Val) from rfl, M.pure_bind] at h
  cases hni : ((alGet k a).getD .vNone).isNotNone <;> rw [hni] at h
  · simp only [Bool.false_eq_true, if_false, M.pure_bind] at h
    exact hK a st rfl (le_refl _) (fun _ => ⟨rfl, rfl⟩) h
  · simp only [if_true] at h
    rw [M.bind_eq_some] at h
    obtain ⟨x, st₀, hx, h⟩ := h
    rw [M.bind_eq_some] at h
    obtain ⟨s₁, st₁, hset, hK'⟩ := h
    have hsome := getD_isNotNone hni
    have hoksub : okS (stripIds ((alGet k a).getD .vNone)) = true :=
      okS_strip_attr i a k _ hok hsome
    obtain ⟨-, hxstrip, hxctr, hxexact⟩ := hwk _ st x _ hoksub hx
    obtain ⟨hst₁, i', a', heq, hs₁⟩ := setK_inv hset
    cases heq
    subst hs₁
    subst hst₁
    refine hK (alSet k x a) _
      (stripAttrs_alSet_congr k x _ a hsome hxstrip) hxctr ?_ hK'
    intro hcp
    obtain ⟨hxv, hst⟩ := hxexact hcp
    subst hxv
    subst hst
    exact ⟨alSet_self _ _ _ hsome, rfl⟩

/-- Presence-guarded child step followed by a continuation (the
do-elaborator duplicates the continuation into both branches of the bound
`if`). -/
theorem presChildK {σ β : Type} {cp : Bool} {wk : Val → M σ Val}
    (hwk : IdWalkOk cp wk) (k : String) (i : Nat) (a : List (String × Val))
    (st : WSt σ) (K : Val → M σ β) (res : β) (stf : WSt σ)
    (hok : okS (stripIds (.vNode i a)) = true)
    (h : (hasK (.vNode i a) k >>= fun hs =>
      if hs then reqGet (.vNode i a) k >>= fun sub =>
        wk sub >>= fun x => setK (.vNode i a) k x >>= fun s₁ => K s₁
      else pure (.vNode i a) >>= fun s₁ => K s₁) st = some (res, stf))
    (C : Prop)
    (hK : ∀ b st₁, stripAttrs b = stripAttrs a → st.ctr ≤ st₁.ctr →
      (cp = false → b = a ∧ st₁ = st) →
      K (.vNode i b) st₁ = some (res, stf) → C) : C := by
  rw [show hasK (.vNode i a) k = (pure (alHas k a) : M σ Bool) from rfl,
    M.pure_bind] at h
  cases hk : alHas k a <;> rw [hk] at h
  · simp only [Bool.false_eq_true, if_false, M.pure_bind] at h
    exact hK a st rfl (le_refl _) (fun _ => ⟨rfl, rfl⟩) h
  · simp only [if_true] at h
    exact mandChildK hwk k i a st K res stf hok h C hK

/-- Rebuild-a-list-attribute step (`schema[k] = [walk(v) for v in schema[k]]`). -/
theorem listAttr_ok {σ : Type} {cp : Bool} (k : String)
    (loop : List Val → M σ (List Val))
    (hloop : ∀ l (st : WSt σ) l' st', okS (stripIds (.vList l)) = true →
      loop l st = some (l', st') →
      stripList l' = stripList l ∧ st.ctr ≤ st'.ctr ∧
        (cp = false → l' = l ∧ st' = st))
    (i : Nat) (a : List (String × Val)) (st : WSt σ) (r : Val) (st' : WSt σ)
    (hok : okS (stripIds (.vNode i a)) = true)
    (h : (reqGet (.vNode i a) k >>= fun v => asList v >>= fun l =>
      loop l >>= fun l' => setK (.vNode i a) k (.vList l')) st =
      some (r, st')) :
    (∃ b, r = .vNode i b ∧ stripAttrs b = stripAttrs a) ∧ st.ctr ≤ st'.ctr ∧
      (cp = false → r = .vNode i a ∧ st' = st) := by
  rw [M.bind_eq_some] at h
  obtain ⟨v, st₀, hv, h⟩ := h
  obtain ⟨hst₀, i', a', heq, hget⟩ := reqGet_inv hv
  cases heq
  subst hst₀
  rw [M.bind_eq_some] at h
  obtain ⟨l, st₁, hl, h⟩ := h
  obtain ⟨hst₁, hveq⟩ := asList_inv hl
  subst hveq
  subst hst₁
  rw [M.bind_eq_some] at h
  obtain ⟨l', st₂, hloop', hset⟩ := h
  have hokl : okS (stripIds (.vList l)) = true :=
    okS_strip_attr i a k _ hok hget
  obtain ⟨hstrip, hctr, hexact⟩ := hloop l _ l' _ hokl hloop'
  obtain ⟨hst₂, i'', a'', heq₂, hr⟩ := setK_inv hset
  cases heq₂
  subst hr
  subst hst₂
  refine ⟨⟨alSet k (.vList l') a, rfl, ?_⟩, hctr, ?_⟩
  · refine stripAttrs_alSet_congr k _ _ a hget ?_
    rw [show stripIds (Val.vList l') = Val.vList (stripList l') from rfl,
      show stripIds (Val.vList l) = Val.vList (stripList l) from rfl, hstrip]
  · intro hcp
    obtain ⟨rfl, hst⟩ := hexact hcp
    subst hst
    rw [alSet_self _ _ _ hget]
    exact ⟨rfl, rfl⟩

/-- Rebuild-a-list-attribute step followed by a continuation. -/
theorem listAttrK {σ β : Type} {cp : Bool} (k : String)
    (loop : List Val → M σ (List Val))
    (hloop : ∀ l (st : WSt σ) l' st', okS (stripIds (.vList l)) = true →
      loop l st = some (l', st') →
      stripList l' = stripList l ∧ st.ctr ≤ st'.ctr ∧
        (cp = false → l' = l ∧ st' = st))
    (i : Nat) (a : List (String × Val)) (st : WSt σ) (K : Val → M σ β)
    (res : β) (stf : WSt σ)
    (hok : okS (stripIds (.vNode i a)) = true)
    (h : (reqGet (.vNode i a) k >>= fun v => asList v >>= fun l =>
      loop l >>= fun l' => setK (.vNode i a) k (.vList l') >>= fun s₁ =>
        K s₁) st = some (res, stf))
    (C : Prop)
    (hK : ∀ b st₁, stripAttrs b = stripAttrs a → st.ctr ≤ st₁.ctr →
      (cp = false → b = a ∧ st₁ = st) →
      K (.vNode i b) st₁ = some (res, stf) → C) : C := by
  rw [M.bind_eq_some] at h
  obtain ⟨v, st₀, hv, h⟩ := h
  obtain ⟨hst₀, i', a', heq, hget⟩ := reqGet_inv hv
  cases heq
  subst hst₀
  rw [M.bind_eq_some] at h
  obtain ⟨l, st₁, hl, h⟩ := h
  obtain ⟨hst₁, hveq⟩ := asList_inv hl
  subst hveq
  subst hst₁
  rw [M.bind_eq_some] at h
  obtain ⟨l', st₂, hloop', h⟩ := h
  rw [M.bind_eq_some] at h
  obtain ⟨s₁, st₃, hset, hK'⟩ := h
  have hokl : okS (stripIds (.vList l)) = true :=
    okS_strip_attr i a k _ hok hget
  obtain ⟨hstrip, hctr, hexact⟩ := hloop l _ l' _ hokl hloop'
  obtain ⟨hst₃, i'', a'', heq₂, hs₁⟩ := setK_inv hset
  cases heq₂
  subst hs₁
  subst hst₃
  refine hK (alSet k (.vList l') a) _ ?_ hctr ?_ hK'
  · refine stripAttrs_alSet_congr k _ _ a hget ?_
    rw [show stripIds (Val.vList l') = Val.vList (stripList l') from rfl,
      show stripIds (Val.vList l) = Val.vList (stripList l) from rfl, hstrip]
  · intro hcp
    obtain ⟨rfl, hst⟩ := hexact hcp
    subst hst
    exact ⟨alSet_self _ _ _ hget, rfl⟩

/-- Rebuild-a-dict-attribute step (`"choices"` / `"fields"` maps). -/
theorem dictAttr_ok {σ : Type} {cp : Bool} (k : String)
    (loop : List (Val × Val) → M σ (List (Val × Val)))
    (hloop : ∀ l (st : WSt σ) l' st', okS (stripIds (.vDict l)) = true →
      loop l st = some (l', st') →
      stripEntries l' = stripEntries l ∧ st.ctr ≤ st'.ctr ∧
        (cp = false → l' = l ∧ st' = st))
    (i : Nat) (a : List (String × Val)) (st : WSt σ) (r : Val) (st' : WSt σ)
    (hok : okS (stripIds (.vNode i a)) = true)
    (h : (reqGet (.vNode i a) k >>= fun v => asDict v >>= fun l =>
      loop l >>= fun l' => setK (.vNode i a) k (.vDict l')) st =
      some (r, st')) :
    (∃ b, r = .vNode i b ∧ stripAttrs b = stripAttrs a) ∧ st.ctr ≤ st'.ctr ∧
      (cp = false → r = .vNode i a ∧ st' = st) := by
  rw [M.bind_eq_some] at h
  obtain ⟨v, st₀, hv, h⟩ := h
  obtain ⟨hst₀, i', a', heq, hget⟩ := reqGet_inv hv
  cases heq
  subst hst₀
  rw [M.bind_eq_some] at h
  obtain ⟨l, st₁, hl, h⟩ := h
  obtain ⟨hst₁, hveq⟩ := asDict_inv hl
  subst hveq
  subst hst₁
  rw [M.bind_eq_some] at h
  obtain ⟨l', st₂, hloop', hset⟩ := h
  have hokl : okS (stripIds (.vDict l)) = true :=
    okS_strip_attr i a k _ hok hget
  obtain ⟨hstrip, hctr, hexact⟩ := hloop l _ l' _ hokl hloop'
  obtain ⟨hst₂, i'', a'', heq₂, hr⟩ := setK_inv hset
  cases heq₂
  subst hr
  subst hst₂
  refine ⟨⟨alSet k (.vDict l') a, rfl, ?_⟩, hctr, ?_⟩
  · refine stripAttrs_alSet_congr k _ _ a hget ?_
    rw [show stripIds (Val.vDict l') = Val.vDict (stripEntries l') from rfl,
      show stripIds (Val.vDict l) = Val.vDict (stripEntries l) from rfl,
      hstrip]
  · intro hcp
    obtain ⟨rfl, hst⟩ := hexact hcp
    subst hst
    rw [alSet_self _ _ _ hget]
    exact ⟨rfl, rfl⟩

theorem computedFieldsStage_ok {σ : Type} {cp : Bool} {wk : Val → M σ Val}
    (hwk : IdWalkOk cp wk) (i : Nat) (a : List (String × Val)) (st : WSt σ)
    (r : Val) (st' : WSt σ)
    (hok : okS (stripIds (.vNode i a)) = true)
    (h : computedFieldsStage wk cp (.vNode i a) st = some (r, st')) :
    (∃ b, r = .vNode i b ∧ stripAttrs b = stripAttrs a) ∧ st.ctr ≤ st'.ctr ∧
      (cp = false → r = .vNode i a ∧ st' = st) := by
  rw [show computedFieldsStage wk cp (.vNode i a) =
      (getComputedFields (.vNode i a) >>= fun cfl =>
        walkComputedFields wk cp cfl >>= fun replaced =>
          if replaced.isEmpty then pure (.vNode i a)
          else setK (.vNode i a) "computed_fields" (.vList replaced))
    from rfl] at h
  rw [show getComputedFields (σ := σ) (.vNode i a) =
      (match alGet "computed_fields" a with
       | none => pure []
       | some (.vList l) => pure l
       | some _ => mfail) from rfl] at h
  rcases hg : alGet "computed_fields" a with _ | cfv <;> rw [hg] at h
  · rw [M.pure_bind] at h
    rw [show walkComputedFields wk cp [] = (pure [] : M σ (List Val))
      from rfl, M.pure_bind] at h
    simp only [List.isEmpty_nil, if_true, M.pure_eq_some] at h
    obtain ⟨rfl, rfl⟩ := h
    exact ⟨⟨a, rfl, rfl⟩, le_refl _, fun _ => ⟨rfl, rfl⟩⟩
  · rcases cfv with _ | _ | _ | _ | _ | _ | l | _ <;>
      try exact Option.noConfusion h
    rw [M.pure_bind] at h
    rw [M.bind_eq_some] at h
    obtain ⟨replaced, st₁, hrep, h⟩ := h
    have hokl : okS (stripIds (.vList l)) = true :=
      okS_strip_attr i a "computed_fields" _ hok hg
    obtain ⟨hstrip, hctr, hexact⟩ :=
      walkComputedFields_ok hwk l _ replaced _ hokl hrep
    cases hre : replaced.isEmpty <;> rw [hre] at h
    · simp only [Bool.false_eq_true, if_false] at h
      obtain ⟨hst', i', a', heq, hr⟩ := setK_inv h
      cases heq
      subst hr
      subst hst'
      refine ⟨⟨alSet "computed_fields" (.vList replaced) a, rfl, ?_⟩,
        hctr, ?_⟩
      · refine stripAttrs_alSet_congr _ _ _ a hg ?_
        rw [show stripIds (Val.vList replaced) =
          Val.vList (stripList replaced) from rfl,
          show stripIds (Val.vList l) = Val.vList (stripList l) from rfl,
          hstrip]
      · intro hcp
        obtain ⟨rfl, hst⟩ := hexact hcp
        subst hst
        rw [alSet_self _ _ _ hg]
        exact ⟨rfl, rfl⟩
    · simp only [if_true, M.pure_eq_some] at h
      obtain ⟨rfl, rfl⟩ := h
      exact ⟨⟨a, rfl, rfl⟩, hctr, fun hcp => ⟨rfl, (hexact hcp).2⟩⟩

theorem _handle_ser_ok {σ : Type} {cp : Bool} {wk : Val → M σ Val}
    (hwk : IdWalkOk cp wk) (ser : Val) (st : WSt σ) (r : Val) (st' : WSt σ)
    (hok : okS (stripIds ser) = true)
    (h : _handle_ser_schemas wk cp ser st = some (r, st')) :
    stripIds r = stripIds ser ∧ st.ctr ≤ st'.ctr ∧
      (cp = false → r = ser ∧ st' = st) := by
  simp only [_handle_ser_schemas] at h
  rw [M.bind_eq_some] at h
  obtain ⟨schemaV, st₀, hsv, h⟩ := h
  obtain ⟨hst₀, si, sa, hser, hsveq⟩ := pyGetM_inv hsv
  subst hser
  subst hsveq
  subst hst₀
  rw [M.bind_eq_some] at h
  obtain ⟨returnV, st₀', hrv, h⟩ := h
  obtain ⟨hst₀', si', sa', heq', hrveq⟩ := pyGetM_inv hrv
  cases heq'
  subst hrveq
  subst hst₀'
  cases hcond : ((alGet "schema" sa).getD .vNone).isNotNone ||
      ((alGet "return_schema" sa).getD .vNone).isNotNone <;> rw [hcond] at h
  · simp only [Bool.false_eq_true, if_false, M.pure_eq_some] at h
    obtain ⟨rfl, rfl⟩ := h
    exact ⟨rfl, le_refl _, fun _ => ⟨rfl, rfl⟩⟩
  · simp only [if_true] at h
    rw [M.bind_eq_some] at h
    obtain ⟨ser₁, st₁, hcp₁, h⟩ := h
    obtain ⟨hc1, hc2, hc3, hc4⟩ := _copy_schema_inv hcp₁
    obtain ⟨j, hser₁, -⟩ := hc4 si sa rfl
    subst hser₁
    cases hsn : ((alGet "schema" sa).getD .vNone).isNotNone <;>
      rw [hsn] at h
    · simp only [Bool.false_eq_true, if_false] at h
      rw [M.pure_bind] at h
      cases hrn : ((alGet "return_schema" sa).getD .vNone).isNotNone <;>
        rw [hrn] at h
      · simp only [Bool.false_eq_true, if_false, M.pure_eq_some] at h
        obtain ⟨rfl, rfl⟩ := h
        exact ⟨hc2, hc1, fun hcp => hc3 hcp⟩
      · simp only [if_true] at h
        rw [M.bind_eq_some] at h
        obtain ⟨y, sty, hy, hsety⟩ := h
        have hsome2 := getD_isNotNone hrn
        have hokret : okS (stripIds ((alGet "return_schema" sa).getD .vNone))
            = true := okS_strip_attr si sa "return_schema" _ hok hsome2
        obtain ⟨-, hystrip, hyctr, hyexact⟩ := hwk _ _ y _ hokret hy
        obtain ⟨hsty', j', ba', heq₂, hr⟩ := setK_inv hsety
        cases heq₂
        subst hr
        subst hsty'
        refine ⟨?_, le_trans hc1 hyctr, ?_⟩
        · rw [show stripIds (Val.vNode j (alSet "return_schema" y sa)) =
            Val.vNode 0 (stripAttrs (alSet "return_schema" y sa)) from rfl,
            stripAttrs_alSet_congr _ _ _ _ hsome2 hystrip]
          rfl
        · intro hcp
          obtain ⟨hne, hst₁⟩ := hc3 hcp
          obtain ⟨hyv, hsty⟩ := hyexact hcp
          subst hyv
          injection hne with hj hsa
          subst hj
          rw [alSet_self _ _ _ hsome2]
          rw [hsty, hst₁]
          exact ⟨rfl, rfl⟩
    · simp only [if_true] at h
      rw [M.bind_eq_some] at h
      obtain ⟨x, stx, hx, h⟩ := h
      rw [M.bind_eq_some] at h
      obtain ⟨ser₂, st₂, hsetx, h⟩ := h
      have hsome1 := getD_isNotNone hsn
      have hoksch : okS (stripIds ((alGet "schema" sa).getD .vNone)) = true :=
        okS_strip_attr si sa "schema" _ hok hsome1
      obtain ⟨-, hxstrip, hxctr, hxexact⟩ := hwk _ _ x _ hoksch hx
      obtain ⟨hstx', j', sa'', heq₂, hser₂⟩ := setK_inv hsetx
      cases heq₂
      subst hser₂
      subst hstx'
      cases hrn : ((alGet "return_schema" sa).getD .vNone).isNotNone <;>
        rw [hrn] at h
      · simp only [Bool.false_eq_true, if_false, M.pure_eq_some] at h
        obtain ⟨rfl, rfl⟩ := h
        refine ⟨?_, le_trans hc1 hxctr, ?_⟩
        · rw [show stripIds (Val.vNode j (alSet "schema" x sa)) =
            Val.vNode 0 (stripAttrs (alSet "schema" x sa)) from rfl,
            stripAttrs_alSet_congr _ _ _ _ hsome1 hxstrip]
          rfl
        · intro hcp
          obtain ⟨hne, hst₁⟩ := hc3 hcp
          obtain ⟨hxv, hstx⟩ := hxexact hcp
          subst hxv
          injection hne with hj hsa
          subst hj
          rw [alSet_self _ _ _ hsome1]
          rw [hstx, hst₁]
          exact ⟨rfl, rfl⟩
      · simp only [if_true] at h
        rw [M.bind_eq_some] at h
        obtain ⟨y, sty, hy, hsety⟩ := h
        have hsome2 := getD_isNotNone hrn
        have hokret : okS (stripIds ((alGet "return_schema" sa).getD .vNone))
            = true := okS_strip_attr si sa "return_schema" _ hok hsome2
        obtain ⟨-, hystrip, hyctr, hyexact⟩ := hwk _ _ y _ hokret hy
        obtain ⟨hsty', j'', ba'', heq₃, hr⟩ := setK_inv hsety
        cases heq₃
        subst hr
        subst hsty'
        have hgets : alGet "return_schema" (alSet "schema" x sa) =
            some ((alGet "return_schema" sa).getD .vNone) := by
          rw [alGet_alSet_ne "schema" "return_schema" (by decide)]
          exact hsome2
        refine ⟨?_, le_trans hc1 (le_trans hxctr hyctr), ?_⟩
        · rw [show stripIds (Val.vNode j
              (alSet "return_schema" y (alSet "schema" x sa))) =
            Val.vNode 0 (stripAttrs
              (alSet "return_schema" y (alSet "schema" x sa))) from rfl,
            stripAttrs_alSet_congr _ _ _ _ hgets hystrip,
            stripAttrs_alSet_congr _ _ _ _ hsome1 hxstrip]
          rfl
        · intro hcp
          obtain ⟨hne, hst₁⟩ := hc3 hcp
          obtain ⟨hxv, hstx⟩ := hxexact hcp
          obtain ⟨hyv, hsty⟩ := hyexact hcp
          subst hxv
          subst hyv
          injection hne with hj hsa
          subst hj
          rw [alSet_self _ _ _ hgets, alSet_self _ _ _ hsome1]
          rw [hsty, hstx, hst₁]
          exact ⟨rfl, rfl⟩

theorem handle_definitions_ok {σ : Type} {cp : Bool} {wk : Val → M σ Val}
    (hwk : IdWalkOk cp wk) (i : Nat) (a : List (String × Val)) (st : WSt σ)
    (r : Val) (st' : WSt σ)
    (hok : okS (stripIds (.vNode i a)) = true)
    (htype : alGet "type" a = some (.vStr "definitions"))
    (h : handle_definitions_schema wk cp (.vNode i a) st = some (r, st')) :
    (∃ j b, r = .vNode j b ∧ stripAttrs b = stripAttrs a ∧
      (cp = true → j = i ∨ st.ctr ≤ j)) ∧ st.ctr ≤ st'.ctr ∧
      (cp = false → r = .vNode i a ∧ st' = st) := by
  simp only [handle_definitions_schema] at h
  rw [M.bind_eq_some] at h
  obtain ⟨defsV, st₀, hdv, h⟩ := h
  obtain ⟨hst₀, i', a', heq, hgetd⟩ := reqGet_inv hdv
  cases heq
  subst hst₀
  rw [M.bind_eq_some] at h
  obtain ⟨l, st₁, hl, h⟩ := h
  obtain ⟨hst₁, hdveq⟩ := asList_inv hl
  subst hdveq
  subst hst₁
  have hdefsCond : (stripList l).all entryHasRef = true ∧
      ((stripList l).isEmpty && (stripAttrs a).length == 3) = false := by
    rw [show stripIds (Val.vNode i a) = Val.vNode 0 (stripAttrs a) from rfl]
      at hok
    rw [show okS (Val.vNode 0 (stripAttrs a)) =
      (okSDefs (stripAttrs a) && okSAttrs (stripAttrs a)) from rfl,
      Bool.and_eq_true] at hok
    have hd := hok.1
    rw [okSDefs, alGet_stripAttrs, htype] at hd
    simp only [Option.map_some'] at hd
    rw [show stripIds (Val.vStr "definitions") = Val.vStr "definitions"
      from rfl] at hd
    rw [alGet_stripAttrs, hgetd] at hd
    simp only [Option.map_some'] at hd
    rw [show stripIds (Val.vList l) = Val.vList (stripList l) from rfl] at hd
    rw [Bool.and_eq_true] at hd
    refine ⟨hd.1, ?_⟩
    have hnn := hd.2
    rwa [Bool.not_eq_true'] at hnn
  rw [M.bind_eq_some] at h
  obtain ⟨nd, st₂, hnd, h⟩ := h
  have hokl : okS (stripIds (.vList l)) = true :=
    okS_strip_attr i a "definitions" _ hok hgetd
  obtain ⟨hndstrip, hndctr, hndexact⟩ :=
    walkDefinitions_ok hwk l _ nd _ hokl hdefsCond.1 hnd
  rw [M.bind_eq_some] at h
  obtain ⟨innerV, st₃, hinner, h⟩ := h
  obtain ⟨hst₃, i2, a2, heq2, hgeti⟩ := reqGet_inv hinner
  cases heq2
  subst hst₃
  rw [M.bind_eq_some] at h
  obtain ⟨ni, st₄, hni, h⟩ := h
  have hokinner := okS_strip_attr i a "schema" _ hok hgeti
  obtain ⟨-, hnistrip, hnictr, hniexact⟩ := hwk innerV _ ni _ hokinner hni
  rw [M.bind_eq_some] at h
  obtain ⟨n, st₅, hlen, h⟩ := h
  obtain ⟨hst₅, i3, a3, heq3, hneq⟩ := dictLen_inv hlen
  cases heq3
  subst hneq
  subst hst₅
  have hcondF : (nd.isEmpty && (a.length == 3)) = false := by
    have h1 : nd.isEmpty = (stripList l).isEmpty := by
      rw [← stripList_isEmpty nd, hndstrip]
    have h2 : (a.length == 3) = ((stripAttrs a).length == 3) := by
      rw [stripAttrs_length]
    rw [h1, h2]
    exact hdefsCond.2
  rw [hcondF] at h
  simp only [Bool.false_eq_true, if_false] at h
  rw [M.bind_eq_some] at h
  obtain ⟨s₁, st₆, hcps, h⟩ := h
  obtain ⟨hc1, hc2, hc3, hc4⟩ := _copy_schema_inv hcps
  obtain ⟨j, hs₁, hjfresh⟩ := hc4 i a rfl
  subst hs₁
  rw [M.bind_eq_some] at h
  obtain ⟨s₂, st₇, hset1, hset2⟩ := h
  obtain ⟨hst₇, j1, b1, heqb, hs₂⟩ := setK_inv hset1
  cases heqb
  subst hs₂
  subst hst₇
  obtain ⟨hstf, j2, b2, heqc, hr⟩ := setK_inv hset2
  cases heqc
  subst hr
  subst hstf
  have hg2 : alGet "definitions" (alSet "schema" ni a) = some (.vList l) := by
    rw [alGet_alSet_ne "schema" "definitions" (by decide)]
    exact hgetd
  refine ⟨⟨j, alSet "definitions" (.vList nd) (alSet "schema" ni a), rfl,
    ?_, ?_⟩, ?_, ?_⟩
  · rw [stripAttrs_alSet_congr _ _ _ _ hg2 (by
      rw [show stripIds (Val.vList nd) = Val.vList (stripList nd) from rfl,
        show stripIds (Val.vList l) = Val.vList (stripList l) from rfl,
        hndstrip]),
      stripAttrs_alSet_congr _ _ _ _ hgeti hnistrip]
  · intro hcpt
    exact Or.inr (le_trans hndctr (le_trans hnictr (hjfresh hcpt)))
  · exact le_trans hndctr (le_trans hnictr hc1)
  · intro hcp
    obtain ⟨hs₁eq, hst₆⟩ := hc3 hcp
    obtain ⟨hnieq, hst₄⟩ := hniexact hcp
    obtain ⟨hndeq, hst₂⟩ := hndexact hcp
    subst hnieq
    subst hndeq
    injection hs₁eq with hji haa
    subst hji
    rw [alSet_self _ _ _ hg2, alSet_self _ _ _ hgeti]
    rw [hst₆, hst₄, hst₂]
    exact ⟨rfl, rfl⟩


/-! ### Composite handler round-trip lemmas -/

theorem handle_dict_ok {σ : Type} {cp : Bool} {wk : Val → M σ Val}
    (hwk : IdWalkOk cp wk) (i : Nat) (a : List (String × Val)) (st : WSt σ)
    (r : Val) (st' : WSt σ)
    (hok : okS (stripIds (.vNode i a)) = true)
    (h : handle_dict_schema wk (.vNode i a) st = some (r, st')) :
    (∃ b, r = .vNode i b ∧ stripAttrs b = stripAttrs a) ∧ st.ctr ≤ st'.ctr ∧
      (cp = false → r = .vNode i a ∧ st' = st) := by
  simp only [handle_dict_schema] at h
  refine optChildK hwk "keys_schema" i a st _ r st' hok h _ ?_
  intro b st₁ hb hctr hexact hK
  obtain ⟨⟨c, hr, hc⟩, hctr₂, hex₂⟩ :=
    truthyChild_ok hwk "values_schema" i b st₁ r st'
      (okS_strip_congr_node hb hok) hK
  refine ⟨⟨c, hr, hc.trans hb⟩, le_trans hctr hctr₂, ?_⟩
  intro hcp
  obtain ⟨rfl, rfl⟩ := hexact hcp
  exact hex₂ hcp

theorem handle_function_before_ok {σ : Type} {cp : Bool} {wk : Val → M σ Val}
    (hwk : IdWalkOk cp wk) (i : Nat) (a : List (String × Val)) (st : WSt σ)
    (r : Val) (st' : WSt σ)
    (hok : okS (stripIds (.vNode i a)) = true)
    (h : handle_function_before_schema wk (.vNode i a) st = some (r, st')) :
    (∃ b, r = .vNode i b ∧ stripAttrs b = stripAttrs a) ∧ st.ctr ≤ st'.ctr ∧
      (cp = false → r = .vNode i a ∧ st' = st) := by
  simp only [handle_function_before_schema] at h
  refine mandChildK hwk "schema" i a st _ r st' hok h _ ?_
  intro b st₁ hb hctr hexact hK
  obtain ⟨⟨c, hr, hc⟩, hctr₂, hex₂⟩ :=
    presChild_ok hwk "json_schema_input_schema" i b st₁ r st'
      (okS_strip_congr_node hb hok) hK
  refine ⟨⟨c, hr, hc.trans hb⟩, le_trans hctr hctr₂, ?_⟩
  intro hcp
  obtain ⟨rfl, rfl⟩ := hexact hcp
  exact hex₂ hcp

theorem handle_function_wrap_ok {σ : Type} {cp : Bool} {wk : Val → M σ Val}
    (hwk : IdWalkOk cp wk) (i : Nat) (a : List (String × Val)) (st : WSt σ)
    (r : Val) (st' : WSt σ)
    (hok : okS (stripIds (.vNode i a)) = true)
    (h : handle_function_wrap_schema wk (.vNode i a) st = some (r, st')) :
    (∃ b, r = .vNode i b ∧ stripAttrs b = stripAttrs a) ∧ st.ctr ≤ st'.ctr ∧
      (cp = false → r = .vNode i a ∧ st' = st) := by
  simp only [handle_function_wrap_schema] at h
  refine presChildK hwk "schema" i a st _ r st' hok h _ ?_
  intro b st₁ hb hctr hexact hK
  obtain ⟨⟨c, hr, hc⟩, hctr₂, hex₂⟩ :=
    presChild_ok hwk "json_schema_input_schema" i b st₁ r st'
      (okS_strip_congr_node hb hok) hK
  refine ⟨⟨c, hr, hc.trans hb⟩, le_trans hctr hctr₂, ?_⟩
  intro hcp
  obtain ⟨rfl, rfl⟩ := hexact hcp
  exact hex₂ hcp

theorem handle_lax_or_strict_ok {σ : Type} {cp : Bool} {wk : Val → M σ Val}
    (hwk : IdWalkOk cp wk) (i : Nat) (a : List (String × Val)) (st : WSt σ)
    (r : Val) (st' : WSt σ)
    (hok : okS (stripIds (.vNode i a)) = true)
    (h : handle_lax_or_strict_schema wk (.vNode i a) st = some (r, st')) :
    (∃ b, r = .vNode i b ∧ stripAttrs b = stripAttrs a) ∧ st.ctr ≤ st'.ctr ∧
      (cp = false → r = .vNode i a ∧ st' = st) := by
  simp only [handle_lax_or_strict_schema] at h
  refine mandChildK hwk "lax_schema" i a st _ r st' hok h _ ?_
  intro b st₁ hb hctr hexact hK
  obtain ⟨⟨c, hr, hc⟩, hctr₂, hex₂⟩ :=
    mandChild_ok hwk "strict_schema" i b st₁ r st'
      (okS_strip_congr_node hb hok) hK
  refine ⟨⟨c, hr, hc.trans hb⟩, le_trans hctr hctr₂, ?_⟩
  intro hcp
  obtain ⟨rfl, rfl⟩ := hexact hcp
  exact hex₂ hcp

theorem handle_json_or_python_ok {σ : Type} {cp : Bool} {wk : Val → M σ Val}
    (hwk : IdWalkOk cp wk) (i : Nat) (a : List (String × Val)) (st : WSt σ)
    (r : Val) (st' : WSt σ)
    (hok : okS (stripIds (.vNode i a)) = true)
    (h : handle_json_or_python_schema wk (.vNode i a) st = some (r, st')) :
    (∃ b, r = .vNode i b ∧ stripAttrs b = stripAttrs a) ∧ st.ctr ≤ st'.ctr ∧
      (cp = false → r = .vNode i a ∧ st' = st) := by
  simp only [handle_json_or_python_schema] at h
  refine mandChildK hwk "json_schema" i a st _ r st' hok h _ ?_
  intro b st₁ hb hctr hexact hK
  obtain ⟨⟨c, hr, hc⟩, hctr₂, hex₂⟩ :=
    mandChild_ok hwk "python_schema" i b st₁ r st'
      (okS_strip_congr_node hb hok) hK
  refine ⟨⟨c, hr, hc.trans hb⟩, le_trans hctr hctr₂, ?_⟩
  intro hcp
  obtain ⟨rfl, rfl⟩ := hexact hcp
  exact hex₂ hcp

theorem handle_call_ok {σ : Type} {cp : Bool} {wk : Val → M σ Val}
    (hwk : IdWalkOk cp wk) (i : Nat) (a : List (String × Val)) (st : WSt σ)
    (r : Val) (st' : WSt σ)
    (hok : okS (stripIds (.vNode i a)) = true)
    (h : handle_call_schema wk (.vNode i a) st = some (r, st')) :
    (∃ b, r = .vNode i b ∧ stripAttrs b = stripAttrs a) ∧ st.ctr ≤ st'.ctr ∧
      (cp = false → r = .vNode i a ∧ st' = st) := by
  simp only [handle_call_schema] at h
  refine mandChildK hwk "arguments_schema" i a st _ r st' hok h _ ?_
  intro b st₁ hb hctr hexact hK
  obtain ⟨⟨c, hr, hc⟩, hctr₂, hex₂⟩ :=
    presChild_ok hwk "return_schema" i b st₁ r st'
      (okS_strip_congr_node hb hok) hK
  refine ⟨⟨c, hr, hc.trans hb⟩, le_trans hctr hctr₂, ?_⟩
  intro hcp
  obtain ⟨rfl, rfl⟩ := hexact hcp
  exact hex₂ hcp

theorem handle_arguments_ok {σ : Type} {cp : Bool} {wk : Val → M σ Val}
    (hwk : IdWalkOk cp wk) (i : Nat) (a : List (String × Val)) (st : WSt σ)
    (r : Val) (st' : WSt σ)
    (hok : okS (stripIds (.vNode i a)) = true)
    (h : handle_arguments_schema wk cp (.vNode i a) st = some (r, st')) :
    (∃ b, r = .vNode i b ∧ stripAttrs b = stripAttrs a) ∧ st.ctr ≤ st'.ctr ∧
      (cp = false → r = .vNode i a ∧ st' = st) := by
  simp only [handle_arguments_schema] at h
  refine listAttrK "arguments_schema" (walkFieldList wk cp)
    (fun l u l₂ u₂ hx hy => walkFieldList_ok hwk l u l₂ u₂ hx hy)
    i a st _ r st' hok h _ ?_
  intro b st₁ hb hctr hexact hK
  refine presChildK hwk "var_args_schema" i b st₁ _ r st'
    (okS_strip_congr_node hb hok) hK _ ?_
  intro c st₂ hc hctr₂ hexact₂ hK₂
  obtain ⟨⟨d, hr, hd⟩, hctr₃, hex₃⟩ :=
    presChild_ok hwk "var_kwargs_schema" i c st₂ r st'
      (okS_strip_congr_node (hc.trans hb) hok) hK₂
  refine ⟨⟨d, hr, (hd.trans hc).trans hb⟩,
    le_trans hctr (le_trans hctr₂ hctr₃), ?_⟩
  intro hcp
  obtain ⟨rfl, rfl⟩ := hexact hcp
  obtain ⟨rfl, rfl⟩ := hexact₂ hcp
  exact hex₃ hcp

theorem handle_model_fields_ok {σ : Type} {cp : Bool} {wk : Val → M σ Val}
    (hwk : IdWalkOk cp wk) (i : Nat) (a : List (String × Val)) (st : WSt σ)
    (r : Val) (st' : WSt σ)
    (hok : okS (stripIds (.vNode i a)) = true)
    (h : handle_model_fields_schema wk cp (.vNode i a) st = some (r, st')) :
    (∃ b, r = .vNode i b ∧ stripAttrs b = stripAttrs a) ∧ st.ctr ≤ st'.ctr ∧
      (cp = false → r = .vNode i a ∧ st' = st) := by
  simp only [handle_model_fields_schema] at h
  rw [M.bind_eq_some] at h
  obtain ⟨s₁, st₁, hex, h⟩ := h
  simp only [extrasStage] at hex
  obtain ⟨⟨b, hs₁, hb⟩, hctr₁, hexact₁⟩ :=
    optChild_ok hwk "extras_schema" i a st s₁ st₁ hok hex
  subst hs₁
  rw [M.bind_eq_some] at h
  obtain ⟨s₂, st₂, hcf, h⟩ := h
  obtain ⟨⟨c, hs₂, hc⟩, hctr₂, hexact₂⟩ :=
    computedFieldsStage_ok hwk i b st₁ s₂ st₂
      (okS_strip_congr_node hb hok) hcf
  subst hs₂
  obtain ⟨⟨d, hr, hd⟩, hctr₃, hexact₃⟩ :=
    dictAttr_ok "fields" (walkFieldsMap wk cp)
      (fun l u l₂ u₂ hx hy => walkFieldsMap_ok hwk l u l₂ u₂ hx hy)
      i c st₂ r st' (okS_strip_congr_node (hc.trans hb) hok) h
  refine ⟨⟨d, hr, (hd.trans hc).trans hb⟩,
    le_trans hctr₁ (le_trans hctr₂ hctr₃), ?_⟩
  intro hcp
  obtain ⟨hbe, rfl⟩ := hexact₁ hcp
  injection hbe with hi hba
  subst hba
  obtain ⟨hce, rfl⟩ := hexact₂ hcp
  injection hce with hi₂ hcb
  subst hcb
  exact hexact₃ hcp

theorem handle_typed_dict_ok {σ : Type} {cp : Bool} {wk : Val → M σ Val}
    (hwk : IdWalkOk cp wk) (i : Nat) (a : List (String × Val)) (st : WSt σ)
    (r : Val) (st' : WSt σ)
    (hok : okS (stripIds (.vNode i a)) = true)
    (h : handle_typed_dict_schema wk cp (.vNode i a) st = some (r, st')) :
    (∃ b, r = .vNode i b ∧ stripAttrs b = stripAttrs a) ∧ st.ctr ≤ st'.ctr ∧
      (cp = false → r = .vNode i a ∧ st' = st) := by
  simp only [handle_typed_dict_schema] at h
  rw [M.bind_eq_some] at h
  obtain ⟨s₁, st₁, hex, h⟩ := h
  simp only [extrasStage] at hex
  obtain ⟨⟨b, hs₁, hb⟩, hctr₁, hexact₁⟩ :=
    optChild_ok hwk "extras_schema" i a st s₁ st₁ hok hex
  subst hs₁
  rw [M.bind_eq_some] at h
  obtain ⟨s₂, st₂, hcf, h⟩ := h
  obtain ⟨⟨c, hs₂, hc⟩, hctr₂, hexact₂⟩ :=
    computedFieldsStage_ok hwk i b st₁ s₂ st₂
      (okS_strip_congr_node hb hok) hcf
  subst hs₂
  obtain ⟨⟨d, hr, hd⟩, hctr₃, hexact₃⟩ :=
    dictAttr_ok "fields" (walkFieldsMap wk cp)
      (fun l u l₂ u₂ hx hy => walkFieldsMap_ok hwk l u l₂ u₂ hx hy)
      i c st₂ r st' (okS_strip_congr_node (hc.trans hb) hok) h
  refine ⟨⟨d, hr, (hd.trans hc).trans hb⟩,
    le_trans hctr₁ (le_trans hctr₂ hctr₃), ?_⟩
  intro hcp
  obtain ⟨hbe, rfl⟩ := hexact₁ hcp
  injection hbe with hi hba
  subst hba
  obtain ⟨hce, rfl⟩ := hexact₂ hcp
  injection hce with hi₂ hcb
  subst hcb
  exact hexact₃ hcp

theorem handle_dataclass_args_ok {σ : Type} {cp : Bool} {wk : Val → M σ Val}
    (hwk : IdWalkOk cp wk) (i : Nat) (a : List (String × Val)) (st : WSt σ)
    (r : Val) (st' : WSt σ)
    (hok : okS (stripIds (.vNode i a)) = true)
    (h : handle_dataclass_args_schema wk cp (.vNode i a) st = some (r, st')) :
    (∃ b, r = .vNode i b ∧ stripAttrs b = stripAttrs a) ∧ st.ctr ≤ st'.ctr ∧
      (cp = false → r = .vNode i a ∧ st' = st) := by
  simp only [handle_dataclass_args_schema] at h
  rw [M.bind_eq_some] at h
  obtain ⟨s₁, st₁, hcf, h⟩ := h
  obtain ⟨⟨b, hs₁, hb⟩, hctr₁, hexact₁⟩ :=
    computedFieldsStage_ok hwk i a st s₁ st₁ hok hcf
  subst hs₁
  obtain ⟨⟨c, hr, hc⟩, hctr₂, hexact₂⟩ :=
    listAttr_ok "fields" (walkFieldList wk cp)
      (fun l u l₂ u₂ hx hy => walkFieldList_ok hwk l u l₂ u₂ hx hy)
      i b st₁ r st' (okS_strip_congr_node hb hok) h
  refine ⟨⟨c, hr, hc.trans hb⟩, le_trans hctr₁ hctr₂, ?_⟩
  intro hcp
  obtain ⟨hbe, rfl⟩ := hexact₁ hcp
  injection hbe with hi hba
  subst hba
  exact hexact₂ hcp



/-! ### The `_walk` step and the main round-trip induction -/

/-- The serialization-sidecar stage of `_walkBody` preserves deep equality,
identity and state under the round-trip hypotheses. -/
theorem sidecarStage_ok {σ : Type} {cp : Bool} {wk : Val → M σ Val}
    (hwk : IdWalkOk cp wk) (i : Nat) (b : List (String × Val)) (st : WSt σ)
    (r : Val) (st' : WSt σ)
    (hok : okS (stripIds (.vNode i b)) = true)
    (h : (pyGetM (.vNode i b) "serialization" >>= fun ser =>
      if ser.truthy then _handle_ser_schemas wk cp ser >>= fun ser' =>
        setK (.vNode i b) "serialization" ser'
      else pure (.vNode i b)) st = some (r, st')) :
    (∃ d, r = .vNode i d ∧ stripAttrs d = stripAttrs b) ∧ st.ctr ≤ st'.ctr ∧
      (cp = false → r = .vNode i b ∧ st' = st) := by
  rw [show pyGetM (.vNode i b) "serialization" =
      (pure ((alGet "serialization" b).getD .vNone) : M σ Val) from rfl,
    M.pure_bind] at h
  cases hni : ((alGet "serialization" b).getD .vNone).truthy <;> rw [hni] at h
  · simp only [Bool.false_eq_true, if_false, M.pure_eq_some] at h
    obtain ⟨rfl, rfl⟩ := h
    exact ⟨⟨b, rfl, rfl⟩, le_refl _, fun _ => ⟨rfl, rfl⟩⟩
  · simp only [if_true] at h
    rw [M.bind_eq_some] at h
    obtain ⟨ser', st₁, hser, hset⟩ := h
    have hsome := getD_truthy hni
    have hokser : okS (stripIds ((alGet "serialization" b).getD .vNone)) =
        true := okS_strip_attr i b "serialization" _ hok hsome
    obtain ⟨hstrip, hctr, hexact⟩ :=
      _handle_ser_ok hwk _ st ser' st₁ hokser hser
    obtain ⟨hst', i', b', heq, hr⟩ := setK_inv hset
    cases heq
    subst hr
    subst hst'
    refine ⟨⟨alSet "serialization" ser' b, rfl,
      stripAttrs_alSet_congr _ _ _ b hsome hstrip⟩, hctr, ?_⟩
    intro hcp
    obtain ⟨hsv, hst⟩ := hexact hcp
    subst hsv
    subst hst
    rw [alSet_self _ _ _ hsome]
    exact ⟨rfl, rfl⟩

/-- Weaken a same-identity handler conclusion to the general form used by
the step lemma (which must also accommodate the definitions handler's
replaced identity). -/
theorem okG_of_ok {cp : Bool} {i n : Nat} {a : List (String × Val)} {r : Val}
    {Q R : Prop}
    (h : (∃ b, r = Val.vNode i b ∧ stripAttrs b = stripAttrs a) ∧ Q ∧ R) :
    (∃ j b, r = Val.vNode j b ∧ stripAttrs b = stripAttrs a ∧
      (cp = true → j = i ∨ n ≤ j)) ∧ Q ∧ R := by
  obtain ⟨⟨b, hs, hb⟩, h2, h3⟩ := h
  exact ⟨⟨i, b, hs, hb, fun _ => Or.inl rfl⟩, h2, h3⟩

/-- One full `_walkBody` step under the identity transform: policy copy,
any handler satisfying the round-trip contract, then the sidecar stage. -/
theorem stepCase_ok {σ : Type} {cp : Bool} {wk : Val → M σ Val}
    (hwk : IdWalkOk cp wk)
    (i : Nat) (a : List (String × Val)) (H : Val → M σ Val)
    (hH : ∀ i₁ (st₂ : WSt σ) s₂ st₃,
      okS (stripIds (.vNode i₁ a)) = true →
      H (.vNode i₁ a) st₂ = some (s₂, st₃) →
      (∃ j b, s₂ = .vNode j b ∧ stripAttrs b = stripAttrs a ∧
        (cp = true → j = i₁ ∨ st₂.ctr ≤ j)) ∧ st₂.ctr ≤ st₃.ctr ∧
      (cp = false → s₂ = .vNode i₁ a ∧ st₃ = st₂))
    (st : WSt σ) (r : Val) (st' : WSt σ)
    (hok : okS (stripIds (.vNode i a)) = true)
    (h : (_copy_schema cp (.vNode i a) >>= fun s₁ =>
      H s₁ >>= fun s₂ =>
      pyGetM s₂ "serialization" >>= fun ser =>
      if ser.truthy then _handle_ser_schemas wk cp ser >>= fun ser' =>
        setK s₂ "serialization" ser'
      else pure s₂) st = some (r, st')) :
    (∃ j b, r = Val.vNode j b ∧ (cp = true → st.ctr ≤ j)) ∧
    stripIds r = stripIds (.vNode i a) ∧ st.ctr ≤ st'.ctr ∧
    (cp = false → r = .vNode i a ∧ st' = st) := by
  rw [M.bind_eq_some] at h
  obtain ⟨s₁, st₂, hcp₁, h⟩ := h
  obtain ⟨hctr₁, hstrip₁, hex₁, hnode₁⟩ := _copy_schema_inv hcp₁
  obtain ⟨i₁, hs₁, hi₁⟩ := hnode₁ i a rfl
  subst hs₁
  rw [M.bind_eq_some] at h
  obtain ⟨s₂, st₃, hh, hsc⟩ := h
  have hok₁ : okS (stripIds (.vNode i₁ a)) = true :=
    okS_strip_congr_node rfl hok
  obtain ⟨⟨j, b, hs₂, hb, hj⟩, hctr₂, hex₂⟩ := hH i₁ st₂ s₂ st₃ hok₁ hh
  subst hs₂
  obtain ⟨⟨d, hr, hd⟩, hctr₃, hex₃⟩ :=
    sidecarStage_ok hwk j b st₃ r st' (okS_strip_congr_node hb hok) hsc
  refine ⟨⟨j, d, hr, ?_⟩, ?_, le_trans hctr₁ (le_trans hctr₂ hctr₃), ?_⟩
  · intro hcpt
    rcases hj hcpt with hji | hjc
    · subst hji
      exact hi₁ hcpt
    · exact le_trans hctr₁ hjc
  · rw [hr, show stripIds (Val.vNode j d) = Val.vNode 0 (stripAttrs d)
      from rfl, hd, hb]
    rfl
  · intro hcp
    obtain ⟨hs₁e, rfl⟩ := hex₁ hcp
    injection hs₁e with hie haa
    subst hie
    obtain ⟨hs₂e, rfl⟩ := hex₂ hcp
    injection hs₂e with hje hbe
    subst hje
    subst hbe
    exact hex₃ hcp


/-- The round-trip induction: under the identity transform, each fuel
level of `_walk` satisfies the round-trip contract on valid trees. -/
theorem _walk_idT_ok {σ : Type} (cp : Bool) :
    ∀ fuel : Nat, IdWalkOk cp (fun c => _walk (σ := σ) fuel cp idT c) := by
  intro fuel
  induction fuel with
  | zero =>
    intro c st r st' hok h
    exact Option.noConfusion h
  | succ fuel ih =>
    have hwk : IdWalkOk cp (fun c' => (idT : WalkT σ) c'
        (fun x => _walk fuel cp idT x)) := ih
    intro c st r st' hok h
    replace h : _walkBody (fun x => _walk fuel cp idT x) cp idT c st =
      some (r, st') := h
    simp only [_walkBody] at h
    rw [M.bind_eq_some] at h
    obtain ⟨tV, st₀, htV, h⟩ := h
    obtain ⟨hst₀, i, a, heq, hget⟩ := reqGet_inv htV
    subst heq
    subst hst₀
    rw [M.bind_eq_some] at h
    obtain ⟨tn, st₁, htn, h⟩ := h
    obtain ⟨hst₁, htVeq⟩ := asStr_inv htn
    subst htVeq
    subst hst₁
    by_cases hmem : tn ∈ coreSchemaTypes
    · rw [if_pos hmem] at h
      simp only [coreSchemaTypes] at hmem
      fin_cases hmem
      · -- "any"
        exact stepCase_ok hwk i a _ (fun i₁ st₂ s₂ st₃ hok₁ hh =>
          okG_of_ok (optChild_ok hwk "schema" i₁ a st₂ s₂ st₃ hok₁ hh))
          _ r st' hok h
      · -- "none"
        exact stepCase_ok hwk i a _ (fun i₁ st₂ s₂ st₃ hok₁ hh =>
          okG_of_ok (optChild_ok hwk "schema" i₁ a st₂ s₂ st₃ hok₁ hh))
          _ r st' hok h
      · -- "bool"
        exact stepCase_ok hwk i a _ (fun i₁ st₂ s₂ st₃ hok₁ hh =>
          okG_of_ok (optChild_ok hwk "schema" i₁ a st₂ s₂ st₃ hok₁ hh))
          _ r st' hok h
      · -- "int"
        exact stepCase_ok hwk i a _ (fun i₁ st₂ s₂ st₃ hok₁ hh =>
          okG_of_ok (optChild_ok hwk "schema" i₁ a st₂ s₂ st₃ hok₁ hh))
          _ r st' hok h
      · -- "float"
        exact stepCase_ok hwk i a _ (fun i₁ st₂ s₂ st₃ hok₁ hh =>
          okG_of_ok (optChild_ok hwk "schema" i₁ a st₂ s₂ st₃ hok₁ hh))
          _ r st' hok h
      · -- "decimal"
        exact stepCase_ok hwk i a _ (fun i₁ st₂ s₂ st₃ hok₁ hh =>
          okG_of_ok (optChild_ok hwk "schema" i₁ a st₂ s₂ st₃ hok₁ hh))
          _ r st' hok h
      · -- "str"
        exact stepCase_ok hwk i a _ (fun i₁ st₂ s₂ st₃ hok₁ hh =>
          okG_of_ok (optChild_ok hwk "schema" i₁ a st₂ s₂ st₃ hok₁ hh))
          _ r st' hok h
      · -- "bytes"
        exact stepCase_ok hwk i a _ (fun i₁ st₂ s₂ st₃ hok₁ hh =>
          okG_of_ok (optChild_ok hwk "schema" i₁ a st₂ s₂ st₃ hok₁ hh))
          _ r st' hok h
      · -- "date"
        exact stepCase_ok hwk i a _ (fun i₁ st₂ s₂ st₃ hok₁ hh =>
          okG_of_ok (optChild_ok hwk "schema" i₁ a st₂ s₂ st₃ hok₁ hh))
          _ r st' hok h
      · -- "time"
        exact stepCase_ok hwk i a _ (fun i₁ st₂ s₂ st₃ hok₁ hh =>
          okG_of_ok (optChild_ok hwk "schema" i₁ a st₂ s₂ st₃ hok₁ hh))
          _ r st' hok h
      · -- "datetime"
        exact stepCase_ok hwk i a _ (fun i₁ st₂ s₂ st₃ hok₁ hh =>
          okG_of_ok (optChild_ok hwk "schema" i₁ a st₂ s₂ st₃ hok₁ hh))
          _ r st' hok h
      · -- "timedelta"
        exact stepCase_ok hwk i a _ (fun i₁ st₂ s₂ st₃ hok₁ hh =>
          okG_of_ok (optChild_ok hwk "schema" i₁ a st₂ s₂ st₃ hok₁ hh))
          _ r st' hok h
      · -- "literal"
        exact stepCase_ok hwk i a _ (fun i₁ st₂ s₂ st₃ hok₁ hh =>
          okG_of_ok (optChild_ok hwk "schema" i₁ a st₂ s₂ st₃ hok₁ hh))
          _ r st' hok h
      · -- "enum"
        exact stepCase_ok hwk i a _ (fun i₁ st₂ s₂ st₃ hok₁ hh =>
          okG_of_ok (optChild_ok hwk "schema" i₁ a st₂ s₂ st₃ hok₁ hh))
          _ r st' hok h
      · -- "is-instance"
        exact stepCase_ok hwk i a _ (fun i₁ st₂ s₂ st₃ hok₁ hh =>
          okG_of_ok (optChild_ok hwk "schema" i₁ a st₂ s₂ st₃ hok₁ hh))
          _ r st' hok h
      · -- "is-subclass"
        exact stepCase_ok hwk i a _ (fun i₁ st₂ s₂ st₃ hok₁ hh =>
          okG_of_ok (optChild_ok hwk "schema" i₁ a st₂ s₂ st₃ hok₁ hh))
          _ r st' hok h
      · -- "callable"
        exact stepCase_ok hwk i a _ (fun i₁ st₂ s₂ st₃ hok₁ hh =>
          okG_of_ok (optChild_ok hwk "schema" i₁ a st₂ s₂ st₃ hok₁ hh))
          _ r st' hok h
      · -- "list"
        exact stepCase_ok hwk i a _ (fun i₁ st₂ s₂ st₃ hok₁ hh =>
          okG_of_ok (optChild_ok hwk "items_schema" i₁ a st₂ s₂ st₃ hok₁ hh))
          _ r st' hok h
      · -- "tuple"
        exact stepCase_ok hwk i a _ (fun i₁ st₂ s₂ st₃ hok₁ hh =>
          okG_of_ok (listAttr_ok "items_schema" (walkEach (fun c => idT c (fun x => _walk fuel cp idT x)))
      (fun l u l₂ u₂ hx hy => walkEach_ok hwk l u l₂ u₂ hx hy)
      i₁ a st₂ s₂ st₃ hok₁ hh))
          _ r st' hok h
      · -- "set"
        exact stepCase_ok hwk i a _ (fun i₁ st₂ s₂ st₃ hok₁ hh =>
          okG_of_ok (optChild_ok hwk "items_schema" i₁ a st₂ s₂ st₃ hok₁ hh))
          _ r st' hok h
      · -- "frozenset"
        exact stepCase_ok hwk i a _ (fun i₁ st₂ s₂ st₃ hok₁ hh =>
          okG_of_ok (optChild_ok hwk "items_schema" i₁ a st₂ s₂ st₃ hok₁ hh))
          _ r st' hok h
      · -- "generator"
        exact stepCase_ok hwk i a _ (fun i₁ st₂ s₂ st₃ hok₁ hh =>
          okG_of_ok (optChild_ok hwk "items_schema" i₁ a st₂ s₂ st₃ hok₁ hh))
          _ r st' hok h
      · -- "dict"
        exact stepCase_ok hwk i a _ (fun i₁ st₂ s₂ st₃ hok₁ hh =>
          okG_of_ok (handle_dict_ok hwk i₁ a st₂ s₂ st₃ hok₁ hh))
          _ r st' hok h
      · -- "function-after"
        exact stepCase_ok hwk i a _ (fun i₁ st₂ s₂ st₃ hok₁ hh =>
          okG_of_ok (mandChild_ok hwk "schema" i₁ a st₂ s₂ st₃ hok₁ hh))
          _ r st' hok h
      · -- "function-before"
        exact stepCase_ok hwk i a _ (fun i₁ st₂ s₂ st₃ hok₁ hh =>
          okG_of_ok (handle_function_before_ok hwk i₁ a st₂ s₂ st₃ hok₁ hh))
          _ r st' hok h
      · -- "function-plain"
        exact stepCase_ok hwk i a _ (fun i₁ st₂ s₂ st₃ hok₁ hh =>
          okG_of_ok (presChild_ok hwk "json_schema_input_schema" i₁ a st₂ s₂ st₃ hok₁ hh))
          _ r st' hok h
      · -- "function-wrap"
        exact stepCase_ok hwk i a _ (fun i₁ st₂ s₂ st₃ hok₁ hh =>
          okG_of_ok (handle_function_wrap_ok hwk i₁ a st₂ s₂ st₃ hok₁ hh))
          _ r st' hok h
      · -- "default"
        exact stepCase_ok hwk i a _ (fun i₁ st₂ s₂ st₃ hok₁ hh =>
          okG_of_ok (optChild_ok hwk "schema" i₁ a st₂ s₂ st₃ hok₁ hh))
          _ r st' hok h
      · -- "nullable"
        exact stepCase_ok hwk i a _ (fun i₁ st₂ s₂ st₃ hok₁ hh =>
          okG_of_ok (optChild_ok hwk "schema" i₁ a st₂ s₂ st₃ hok₁ hh))
          _ r st' hok h
      · -- "union"
        exact stepCase_ok hwk i a _ (fun i₁ st₂ s₂ st₃ hok₁ hh =>
          okG_of_ok (listAttr_ok "choices" (walkUnionChoices (fun c => idT c (fun x => _walk fuel cp idT x)))
      (fun l u l₂ u₂ hx hy => walkUnionChoices_ok hwk l u l₂ u₂ hx hy)
      i₁ a st₂ s₂ st₃ hok₁ hh))
          _ r st' hok h
      · -- "tagged-union"
        exact stepCase_ok hwk i a _ (fun i₁ st₂ s₂ st₃ hok₁ hh =>
          okG_of_ok (dictAttr_ok "choices" (walkTaggedChoices (fun c => idT c (fun x => _walk fuel cp idT x)))
      (fun l u l₂ u₂ hx hy => walkTaggedChoices_ok hwk l u l₂ u₂ hx hy)
      i₁ a st₂ s₂ st₃ hok₁ hh))
          _ r st' hok h
      · -- "chain"
        exact stepCase_ok hwk i a _ (fun i₁ st₂ s₂ st₃ hok₁ hh =>
          okG_of_ok (listAttr_ok "steps" (walkEach (fun c => idT c (fun x => _walk fuel cp idT x)))
      (fun l u l₂ u₂ hx hy => walkEach_ok hwk l u l₂ u₂ hx hy)
      i₁ a st₂ s₂ st₃ hok₁ hh))
          _ r st' hok h
      · -- "lax-or-strict"
        exact stepCase_ok hwk i a _ (fun i₁ st₂ s₂ st₃ hok₁ hh =>
          okG_of_ok (handle_lax_or_strict_ok hwk i₁ a st₂ s₂ st₃ hok₁ hh))
          _ r st' hok h
      · -- "json-or-python"
        exact stepCase_ok hwk i a _ (fun i₁ st₂ s₂ st₃ hok₁ hh =>
          okG_of_ok (handle_json_or_python_ok hwk i₁ a st₂ s₂ st₃ hok₁ hh))
          _ r st' hok h
      · -- "typed-dict"
        exact stepCase_ok hwk i a _ (fun i₁ st₂ s₂ st₃ hok₁ hh =>
          okG_of_ok (handle_typed_dict_ok hwk i₁ a st₂ s₂ st₃ hok₁ hh))
          _ r st' hok h
      · -- "model-fields"
        exact stepCase_ok hwk i a _ (fun i₁ st₂ s₂ st₃ hok₁ hh =>
          okG_of_ok (handle_model_fields_ok hwk i₁ a st₂ s₂ st₃ hok₁ hh))
          _ r st' hok h
      · -- "model"
        exact stepCase_ok hwk i a _ (fun i₁ st₂ s₂ st₃ hok₁ hh =>
          okG_of_ok (optChild_ok hwk "schema" i₁ a st₂ s₂ st₃ hok₁ hh))
          _ r st' hok h
      · -- "dataclass-args"
        exact stepCase_ok hwk i a _ (fun i₁ st₂ s₂ st₃ hok₁ hh =>
          okG_of_ok (handle_dataclass_args_ok hwk i₁ a st₂ s₂ st₃ hok₁ hh))
          _ r st' hok h
      · -- "dataclass"
        exact stepCase_ok hwk i a _ (fun i₁ st₂ s₂ st₃ hok₁ hh =>
          okG_of_ok (optChild_ok hwk "schema" i₁ a st₂ s₂ st₃ hok₁ hh))
          _ r st' hok h
      · -- "arguments"
        exact stepCase_ok hwk i a _ (fun i₁ st₂ s₂ st₃ hok₁ hh =>
          okG_of_ok (handle_arguments_ok hwk i₁ a st₂ s₂ st₃ hok₁ hh))
          _ r st' hok h
      · -- "call"
        exact stepCase_ok hwk i a _ (fun i₁ st₂ s₂ st₃ hok₁ hh =>
          okG_of_ok (handle_call_ok hwk i₁ a st₂ s₂ st₃ hok₁ hh))
          _ r st' hok h
      · -- "custom-error"
        exact stepCase_ok hwk i a _ (fun i₁ st₂ s₂ st₃ hok₁ hh =>
          okG_of_ok (optChild_ok hwk "schema" i₁ a st₂ s₂ st₃ hok₁ hh))
          _ r st' hok h
      · -- "json"
        exact stepCase_ok hwk i a _ (fun i₁ st₂ s₂ st₃ hok₁ hh =>
          okG_of_ok (optChild_ok hwk "schema" i₁ a st₂ s₂ st₃ hok₁ hh))
          _ r st' hok h
      · -- "url"
        exact stepCase_ok hwk i a _ (fun i₁ st₂ s₂ st₃ hok₁ hh =>
          okG_of_ok (optChild_ok hwk "schema" i₁ a st₂ s₂ st₃ hok₁ hh))
          _ r st' hok h
      · -- "multi-host-url"
        exact stepCase_ok hwk i a _ (fun i₁ st₂ s₂ st₃ hok₁ hh =>
          okG_of_ok (optChild_ok hwk "schema" i₁ a st₂ s₂ st₃ hok₁ hh))
          _ r st' hok h
      · -- "definitions"
        exact stepCase_ok hwk i a _ (fun i₁ st₂ s₂ st₃ hok₁ hh =>
          handle_definitions_ok hwk i₁ a st₂ s₂ st₃ hok₁ hget hh)
          _ r st' hok h
      · -- "definition-ref"
        exact stepCase_ok hwk i a _ (fun i₁ st₂ s₂ st₃ hok₁ hh =>
          okG_of_ok (optChild_ok hwk "schema" i₁ a st₂ s₂ st₃ hok₁ hh))
          _ r st' hok h
      · -- "uuid"
        exact stepCase_ok hwk i a _ (fun i₁ st₂ s₂ st₃ hok₁ hh =>
          okG_of_ok (optChild_ok hwk "schema" i₁ a st₂ s₂ st₃ hok₁ hh))
          _ r st' hok h
      · -- "complex"
        exact stepCase_ok hwk i a _ (fun i₁ st₂ s₂ st₃ hok₁ hh =>
          okG_of_ok (optChild_ok hwk "schema" i₁ a st₂ s₂ st₃ hok₁ hh))
          _ r st' hok h
    · rw [if_neg hmem] at h
      exact Option.noConfusion h



/-! ### Claim C3 — round trip under the identity transform -/

/-- Claim C3, counterexample.  The claim states that for every valid
schema tree the identity-transform walk returns a deep-equal tree
(`copy=true`: a distinct object graph; `copy=false`: the same object
graph).  A definitions container with an empty definitions list and only
the three baseline attributes is pruned: the walk returns the transformed
inner node, which is not deep-equal to the container, and under
`copy=false` the returned object is the inner child (id 0), not the root
object (id 1) that was passed in. -/
theorem c3_counterexample :
    (walk_core_schema 9 (.vNode 1 [("type", .vStr "definitions"),
        ("schema", .vNode 0 [("type", .vStr "int")]),
        ("definitions", .vList [])]) idT true ⟨2, ()⟩ :
      Option (Val × WSt Unit)) =
      some (.vNode 4 [("type", .vStr "int")], ⟨5, ()⟩) ∧
    stripIds (.vNode 4 [("type", .vStr "int")]) ≠
      stripIds (.vNode 1 [("type", .vStr "definitions"),
        ("schema", .vNode 0 [("type", .vStr "int")]),
        ("definitions", .vList [])]) ∧
    (walk_core_schema 9 (.vNode 1 [("type", .vStr "definitions"),
        ("schema", .vNode 0 [("type", .vStr "int")]),
        ("definitions", .vList [])]) idT false ⟨2, ()⟩ :
      Option (Val × WSt Unit)) =
      some (.vNode 0 [("type", .vStr "int")], ⟨2, ()⟩) := by
  refine ⟨rfl, ?_, rfl⟩
  simp [stripIds, stripAttrs, stripList]

/-- Claim C3, amended.  On trees in which every definitions entry carries
`"ref"` and no definitions container is trivial (the `okS` validity
predicate on the stripped tree), walking with the identity transform that
always recurses yields a deep-equal output; under `copy=true` the
returned root is a freshly allocated object (its identity is at least the
walk's starting counter, hence distinct from every object of the input),
and under `copy=false` the walk returns exactly the input object graph
with untouched state. -/
theorem c3_amended_thm {σ : Type} (fuel : Nat) (cp : Bool) (s : Val)
    (st : WSt σ) (r : Val) (st' : WSt σ)
    (hok : okS (stripIds s) = true)
    (h : walk_core_schema fuel s idT cp st = some (r, st')) :
    stripIds r = stripIds s ∧
    (cp = true → ∃ j b, r = Val.vNode j b ∧ st.ctr ≤ j) ∧
    (cp = false → r = s ∧ st' = st) := by
  simp only [walk_core_schema] at h
  cases cp
  · simp only [Bool.false_eq_true, if_false, M.pure_bind] at h
    replace h : _walk fuel false idT s st = some (r, st') := h
    obtain ⟨-, hstrip, -, hexact⟩ :=
      _walk_idT_ok false fuel s st r st' hok h
    exact ⟨hstrip, fun hc => absurd hc (by simp), fun _ => hexact rfl⟩
  · rw [if_pos rfl] at h
    rw [M.bind_eq_some] at h
    obtain ⟨s₀, st₀, hc, h⟩ := h
    obtain ⟨hctr₁, hstrip₁, -, hnode₁⟩ := _copy_schema_inv hc
    replace h : _walk fuel true idT s₀ st₀ = some (r, st') := h
    have hok₀ : okS (stripIds s₀) = true := by rw [hstrip₁]; exact hok
    obtain ⟨⟨j, b, hr, hj⟩, hstrip₂, -, -⟩ :=
      _walk_idT_ok true fuel s₀ st₀ r st' hok₀ h
    refine ⟨by rw [hstrip₂, hstrip₁], ?_, fun hc => absurd hc (by simp)⟩
    intro hct
    exact ⟨j, b, hr, le_trans hctr₁ (hj rfl)⟩

/-- Witness for `c3_amended_thm`: a one-node `"int"` tree walked with
`copy=true` from counter 1 returns a deep-equal node with the fresh
identity 2. -/
theorem c3_amended_witness :
    okS (stripIds (Val.vNode 0 [("type", Val.vStr "int")])) = true ∧
    (stripIds (Val.vNode 2 [("type", Val.vStr "int")]) =
        stripIds (Val.vNode 0 [("type", Val.vStr "int")]) ∧
      (true = true → ∃ j b, Val.vNode 2 [("type", Val.vStr "int")] =
        Val.vNode j b ∧ (⟨1, ()⟩ : WSt Unit).ctr ≤ j) ∧
      (true = false → Val.vNode 2 [("type", Val.vStr "int")] =
        Val.vNode 0 [("type", Val.vStr "int")] ∧
        (⟨3, ()⟩ : WSt Unit) = ⟨1, ()⟩)) :=
  ⟨rfl, c3_amended_thm 3 true (.vNode 0 [("type", .vStr "int")]) ⟨1, ()⟩
    (.vNode 2 [("type", .vStr "int")]) ⟨3, ()⟩ rfl rfl⟩


end WalkCore
